import Mathlib

/-!
Verification of the per-node DV (distance vector) and LS (link state) routing
engines of `DVrouter.py` / `LSrouter.py`.

The embedding is shallow:

* Python `dict`s become association lists (`List (κ × β)`) with insertion-order
  semantics: assignment updates the first matching key in place, otherwise
  appends; deletion removes the key; iteration follows the list order.
* Addresses are an arbitrary linearly ordered type `α` (Python strings are
  totally ordered; the order only matters for the `heapq` tie-break on
  `(distance, node)` tuples).  Ports are `Nat`, link costs are `Nat`
  (the spec fixes costs to non-negative numbers), sequence numbers and
  timestamps are `Int` (Python ints; differences may be negative).
* A packet's payload is `Option`-valued: `none` models exactly the content
  on which the decode raises before anything is mutated (for DV, `json.loads`
  itself; for LS, `json.loads`, the three field accesses, or hashing the
  `(router, seq)` pair), runs the routers swallow with their catch-all
  `except` having touched nothing.  Content that parses but is not a
  well-typed payload is NOT a silent no-op in the source; the mutating runs
  it triggers are embedded separately (`DV.handle_packet_garbage`,
  `LS.handle_packet_badlinks`), with `none` marking the runs that write the
  undecodable object itself into the state and so leave the typed state
  space.
* Each handler returns the new router state together with the ordered list of
  `(port, packet)` pairs passed to `self.send`.
* `LSrouter.broadcast_link_state` reads the wall clock
  (`time.time() * 1000`); that read is modelled as an explicit `wall`
  argument to the LS handlers that can broadcast.
-/

/-- Python dict lookup `d[k]` as an option (first matching key). -/
def pyGet {κ β : Type} [DecidableEq κ] (l : List (κ × β)) (k : κ) : Option β :=
  match l with
  | [] => none
  | (k', v) :: rest => if k' = k then some v else pyGet rest k

/-- Python dict assignment `d[k] = v`: update the first matching key in place,
otherwise append at the end (insertion order). -/
def pySet {κ β : Type} [DecidableEq κ] (l : List (κ × β)) (k : κ) (v : β) :
    List (κ × β) :=
  match l with
  | [] => [(k, v)]
  | (k', v') :: rest => if k' = k then (k, v) :: rest else (k', v') :: pySet rest k v

/-- Python dict deletion `del d[k]`: remove the first matching key. -/
def pyDel {κ β : Type} [DecidableEq κ] (l : List (κ × β)) (k : κ) : List (κ × β) :=
  match l with
  | [] => []
  | (k', v') :: rest => if k' = k then rest else (k', v') :: pyDel rest k



/-! ## The DV engine (`DVrouter.py`)

State components mirror `DVrouter.__init__`; each handler returns the new
state together with the list of `(port, packet)` pairs sent, in order. -/

/-- State of a `DVrouter` instance. -/
structure DVState (α : Type) where
  addr : α
  heartbeat_time : Int
  last_sent : Int
  /-- `dv`: destination ↦ (cost, out-port or `none`). -/
  dv : List (α × (Nat × Option Nat))
  /-- `neighbors`: port ↦ (neighbor address, cost). -/
  neighbors : List (Nat × (α × Nat))
  /-- `neighbor_dvs`: neighbor address ↦ advertised destination ↦ cost. -/
  neighbor_dvs : List (α × List (α × Nat))
  /-- `forwarding_table`: destination ↦ out-port. -/
  forwarding_table : List (α × Nat)
deriving DecidableEq, Repr

/-- Packets exchanged by DV routers.  A routing packet's `content` is the
serialized cost map; `none` stands for content on which `json.loads` itself
raises, before anything is mutated.  Payloads that parse to something other
than a cost dict are embedded by `DV.handle_packet_garbage` below and are
not silent no-ops. -/
inductive DVPacket (α : Type) where
  | traceroute (src_addr dst_addr : α)
  | routing (src_addr dst_addr : α) (content : Option (List (α × Nat)))
deriving DecidableEq, Repr

namespace DV

variable {α : Type} [DecidableEq α]

/-- `DVrouter.__init__`. -/
def init (addr : α) (heartbeat_time : Int) : DVState α :=
  { addr := addr
    heartbeat_time := heartbeat_time
    last_sent := 0
    dv := [(addr, (0, none))]
    neighbors := []
    neighbor_dvs := []
    forwarding_table := [] }

/-- The destination set scanned by `update_distance_vector`: the union of all
destinations in any neighbor's DV and all direct neighbor addresses (a Python
`set`; only membership and distinctness matter, the embedding fixes an order
and deduplicates). -/
def all_destinations (s : DVState α) : List α :=
  ((s.neighbor_dvs.map (fun nd => nd.2.map Prod.fst)).flatten
    ++ s.neighbors.map (fun pe => pe.2.1)).dedup

/-- Comparison of a candidate cost against the running best
(`cost < best_cost`, where a missing best is `float('inf')`). -/
def bLT (c : Nat) (best : Option (Nat × Nat)) : Bool :=
  match best with
  | none => true
  | some bc => c < bc.1

/-- One step of the first scan of `update_distance_vector`:
`if endpoint == dest and cost < best_cost`. -/
def directStep (dest : α) (best : Option (Nat × Nat)) (pe : Nat × (α × Nat)) :
    Option (Nat × Nat) :=
  if pe.2.1 = dest ∧ bLT pe.2.2 best then some (pe.2.2, pe.1) else best

/-- One step of the second scan of `update_distance_vector`: a path through a
neighbor, skipped when the neighbor advertises `>= 16`, installed when the
total is both better and `< 16`. -/
def throughStep (neighbor_dvs : List (α × List (α × Nat))) (dest : α)
    (best : Option (Nat × Nat)) (pe : Nat × (α × Nat)) : Option (Nat × Nat) :=
  match pyGet neighbor_dvs pe.2.1 with
  | none => best
  | some ndv =>
    match pyGet ndv dest with
    | none => best
    | some neighbor_cost =>
      if 16 ≤ neighbor_cost then best
      else
        let total := pe.2.2 + neighbor_cost
        if bLT total best ∧ total < 16 then some (total, pe.1) else best

/-- The two scans of `update_distance_vector` for a fixed destination: first
over direct links, then over paths through neighbors.  The source keeps
`best_cost`/`best_port` in two variables; here they are paired, `none`
standing for `(inf, None)`. -/
def best_path (s : DVState α) (dest : α) : Option (Nat × Nat) :=
  s.neighbors.foldl (throughStep s.neighbor_dvs dest)
    (s.neighbors.foldl (directStep dest) none)

/-- The body of `update_distance_vector`'s loop for one destination, acting on
the accumulated `(dv, forwarding_table, updated)` triple.  Self is skipped;
a strictly better (or first) route is installed; a destination with no
admissible candidate is dropped. -/
def relaxDest (s : DVState α)
    (acc : List (α × (Nat × Option Nat)) × List (α × Nat) × Bool) (dest : α) :
    List (α × (Nat × Option Nat)) × List (α × Nat) × Bool :=
  if dest = s.addr then acc
  else
    match best_path s dest with
    | some (best_cost, best_port) =>
      match pyGet acc.1 dest with
      | none =>
        (pySet acc.1 dest (best_cost, some best_port),
         pySet acc.2.1 dest best_port, true)
      | some cp =>
        if cp.1 > best_cost then
          (pySet acc.1 dest (best_cost, some best_port),
           pySet acc.2.1 dest best_port, true)
        else acc
    | none =>
      match pyGet acc.1 dest with
      | some _ => (pyDel acc.1 dest, pyDel acc.2.1 dest, true)
      | none => acc

/-- `update_distance_vector`: relax every destination in `all_destinations`
(except self), returning the updated state and whether anything changed. -/
def update_distance_vector (s : DVState α) : DVState α × Bool :=
  let r := (all_destinations s).foldl (relaxDest s)
    (s.dv, s.forwarding_table, false)
  ({ s with dv := r.1, forwarding_table := r.2.1 }, r.2.2)

/-- One step of the loop building `simplified_dv` in `send_dv_to_neighbor`:
split horizon with poison reverse (report 16 for routes out of `port`). -/
def poisonStep (port : Nat) (m : List (α × Nat))
    (dc : α × (Nat × Option Nat)) : List (α × Nat) :=
  if dc.2.2 = some port then pySet m dc.1 16 else pySet m dc.1 dc.2.1

/-- The `simplified_dv` built by `send_dv_to_neighbor`: self at cost 0 first,
then every `dv` entry, poisoned when its route leaves through `port`. -/
def simplified_dv (s : DVState α) (port : Nat) : List (α × Nat) :=
  s.dv.foldl (poisonStep port) [(s.addr, 0)]

/-- `send_dv_to_neighbor`: the split-horizon/poison-reverse vector for one
port, sent only when the port still has a neighbor. -/
def send_dv_to_neighbor (s : DVState α) (port : Nat) :
    List (Nat × DVPacket α) :=
  match pyGet s.neighbors port with
  | some nb => [(port, DVPacket.routing s.addr nb.1 (some (simplified_dv s port)))]
  | none => []

/-- `broadcast_dv`: reinstate the self route, then send the (per-port
poisoned) vector to every neighbor.  The `simplified_dv` computed inside the
source's `broadcast_dv` is dead code and is not modelled. -/
def broadcast_dv (s : DVState α) : DVState α × List (Nat × DVPacket α) :=
  let s' := { s with dv := pySet s.dv s.addr (0, none) }
  (s', s'.neighbors.foldl (fun acc pe => acc ++ send_dv_to_neighbor s' pe.1) [])

/-- `DVrouter.handle_packet`. -/
def handle_packet (s : DVState α) (port : Nat) (packet : DVPacket α) :
    DVState α × List (Nat × DVPacket α) :=
  match packet with
  | DVPacket.traceroute _ dst_addr =>
    match pyGet s.forwarding_table dst_addr with
    | some out_port => (s, [(out_port, packet)])
    | none =>
      match s.neighbors.find? (fun pe => pe.2.1 = dst_addr) with
      | some pe => (s, [(pe.1, packet)])
      | none => (s, [])
  | DVPacket.routing _ _ content =>
    match pyGet s.neighbors port with
    | none => (s, [])          -- KeyError, swallowed by the catch-all except
    | some nb =>
      match content with
      | none => (s, [])        -- json.loads raises, swallowed
      | some received_dv =>
        let neighbor_addr := nb.1
        let dv_changed :=
          match pyGet s.neighbor_dvs neighbor_addr with
          | none => true
          | some old_dv =>
            received_dv.any (fun dc => pyGet old_dv dc.1 ≠ some dc.2)
        let s1 := { s with
          neighbor_dvs := pySet s.neighbor_dvs neighbor_addr received_dv }
        if dv_changed then
          match update_distance_vector s1 with
          | (s2, true) => broadcast_dv s2
          | (s2, false) => (s2, [])
        else (s1, [])

/-- `DVrouter.handle_new_link`. -/
def handle_new_link (s : DVState α) (port : Nat) (endpoint : α) (cost : Nat) :
    DVState α × List (Nat × DVPacket α) :=
  let s0 := { s with neighbors := pySet s.neighbors port (endpoint, cost) }
  let s1 :=
    match pyGet s0.dv endpoint with
    | none =>
      { s0 with dv := pySet s0.dv endpoint (cost, some port)
                forwarding_table := pySet s0.forwarding_table endpoint port }
    | some cp =>
      if cp.1 > cost then
        { s0 with dv := pySet s0.dv endpoint (cost, some port)
                  forwarding_table := pySet s0.forwarding_table endpoint port }
      else s0
  let s2 := (update_distance_vector s1).1
  let bs := broadcast_dv s2
  let extra :=
    if (pyGet bs.1.neighbors port).isSome then send_dv_to_neighbor bs.1 port
    else []
  (bs.1, bs.2 ++ extra)

/-- `DVrouter.handle_remove_link`.  The source broadcasts in both branches of
its final `if`, so the embedding broadcasts unconditionally. -/
def handle_remove_link (s : DVState α) (port : Nat) :
    DVState α × List (Nat × DVPacket α) :=
  match pyGet s.neighbors port with
  | none => (s, [])
  | some nb =>
    let s1 := { s with
      neighbors := pyDel s.neighbors port
      neighbor_dvs := pyDel s.neighbor_dvs nb.1 }
    let routes_to_update :=
      (s1.dv.filter (fun dc => dc.2.2 = some port)).map Prod.fst
    let s2 := routes_to_update.foldl
      (fun st dest =>
        { st with dv := pyDel st.dv dest
                  forwarding_table := pyDel st.forwarding_table dest })
      s1
    let s3 := (update_distance_vector s2).1
    broadcast_dv s3

/-- `DVrouter.handle_time`. -/
def handle_time (s : DVState α) (time_ms : Int) :
    DVState α × List (Nat × DVPacket α) :=
  if s.heartbeat_time ≤ time_ms - s.last_sent then
    let s1 := (update_distance_vector s).1
    let bs := broadcast_dv s1
    ({ bs.1 with last_sent := time_ms }, bs.2)
  else (s, [])

end DV

/-! ## Specification-side definitions for the DV claims

These restate, independently of the fold-based code above, which costs are in
play for a destination, so that the claims can be phrased as minima over
candidate lists. -/

/-- Minimum of a list of naturals, `none` on the empty list. -/
def listMin : List Nat → Option Nat
  | [] => none
  | x :: xs =>
    match listMin xs with
    | none => some x
    | some m => some (min x m)

/-- Minimum of two optional naturals (`none` = no candidate). -/
def omin : Option Nat → Option Nat → Option Nat
  | none, b => b
  | some a, none => some a
  | some a, some b => some (min a b)

/-- The direct link costs a node has to `dest` (one per port whose endpoint is
`dest`). -/
def directCostsL {α : Type} [DecidableEq α] (dest : α)
    (neighbors : List (Nat × (α × Nat))) : List Nat :=
  neighbors.filterMap (fun pe => if pe.2.1 = dest then some pe.2.2 else none)

/-- The costs of routes to `dest` through a neighbor that the code accepts:
the neighbor advertises `dest` below 16 and the total link + advertised cost
stays below 16. -/
def throughCostsL {α : Type} [DecidableEq α]
    (neighbor_dvs : List (α × List (α × Nat))) (dest : α)
    (neighbors : List (Nat × (α × Nat))) : List Nat :=
  neighbors.filterMap (fun pe =>
    match pyGet neighbor_dvs pe.2.1 with
    | none => none
    | some ndv =>
      match pyGet ndv dest with
      | none => none
      | some nc =>
        if nc < 16 ∧ pe.2.2 + nc < 16 then some (pe.2.2 + nc) else none)

/-- All candidate costs the code considers for `dest`: direct link costs
(not subject to the 16 ceiling) and admissible through-neighbor costs. -/
def candidateCosts {α : Type} [DecidableEq α] (s : DVState α) (dest : α) :
    List Nat :=
  directCostsL dest s.neighbors ++ throughCostsL s.neighbor_dvs dest s.neighbors

/-- The candidate costs exactly as claim C2 words them: the direct link cost
to `d` (if `d` is a neighbor) and `link_cost(n) + neighbor_dvs[n][d]` over
neighbors `n`, with any candidate of cost 16 or more treated as unreachable. -/
def claimC2Candidates {α : Type} [DecidableEq α] (s : DVState α) (d : α) :
    List Nat :=
  (directCostsL d s.neighbors ++
    s.neighbors.filterMap (fun pe =>
      match pyGet s.neighbor_dvs pe.2.1 with
      | none => none
      | some ndv => (pyGet ndv d).map (fun nc => pe.2.2 + nc))).filter
    (fun c => c < 16)

/-- Claim C2 as stated: after a handler, every destination present in `dv`
(other than self) carries exactly the minimum of the claim's candidate costs;
in particular a destination with no candidate below 16 is absent. -/
def DVclaimC2 {α : Type} [DecidableEq α] (s : DVState α) : Prop :=
  ∀ d c p, d ≠ s.addr → pyGet s.dv d = some (c, p) →
    listMin (claimC2Candidates s d) = some c

/-- Claim C6 as stated: a routing packet from a known neighbor is stored
unconditionally, the local vector is then recomputed, and the result is
broadcast if and only if the recomputation changed the local vector. -/
def DVclaimC6predicted {α : Type} [DecidableEq α] (s : DVState α)
    (neighbor_addr : α) (received_dv : List (α × Nat)) :
    DVState α × List (Nat × DVPacket α) :=
  let s1 := { s with neighbor_dvs := pySet s.neighbor_dvs neighbor_addr received_dv }
  match DV.update_distance_vector s1 with
  | (s2, true) => DV.broadcast_dv s2
  | (s2, false) => (s2, [])

/-- A concrete DV router state used to separate claim C6 from the code: both
neighbors are known, neighbor 20 poisons destination 30, and the stored vector
of neighbor 10 still advertises destination 30. -/
def dvStateC6 : DVState Nat :=
  { addr := 0
    heartbeat_time := 100
    last_sent := 0
    dv := [(0, (0, none)), (10, (1, some 1)), (20, (1, some 2)), (30, (3, some 1))]
    neighbors := [(1, (10, 1)), (2, (20, 1))]
    neighbor_dvs := [(10, [(10, 0), (30, 2)]), (20, [(20, 0), (30, 16)])]
    forwarding_table := [(10, 1), (20, 2), (30, 1)] }

/-! ## Dictionary lemmas -/

section DictLemmas

variable {κ β : Type} [DecidableEq κ]

theorem pyGet_pySet_self (l : List (κ × β)) (k : κ) (v : β) :
    pyGet (pySet l k v) k = some v := by
  induction l with
  | nil => simp [pyGet, pySet]
  | cons hd tl ih =>
    obtain ⟨k', v'⟩ := hd
    by_cases h : k' = k <;> simp [pyGet, pySet, h, ih]

theorem pyGet_pySet_ne (l : List (κ × β)) (k k' : κ) (v : β) (h : k ≠ k') :
    pyGet (pySet l k v) k' = pyGet l k' := by
  induction l with
  | nil => simp [pyGet, pySet, h]
  | cons hd tl ih =>
    obtain ⟨k0, v0⟩ := hd
    by_cases h0 : k0 = k
    · subst h0
      simp [pyGet, pySet, h]
    · simp only [pySet, if_neg h0, pyGet]
      by_cases h1 : k0 = k' <;> simp [h1, ih]

theorem pyGet_pyDel_ne (l : List (κ × β)) (k k' : κ) (h : k ≠ k') :
    pyGet (pyDel l k) k' = pyGet l k' := by
  induction l with
  | nil => simp [pyDel]
  | cons hd tl ih =>
    obtain ⟨k0, v0⟩ := hd
    by_cases h0 : k0 = k
    · subst h0
      simp [pyDel, pyGet, h]
    · simp only [pyDel, if_neg h0, pyGet]
      by_cases h1 : k0 = k' <;> simp [h1, ih]

theorem pyGet_eq_none_of_not_mem (l : List (κ × β)) (k : κ)
    (h : k ∉ l.map Prod.fst) : pyGet l k = none := by
  induction l with
  | nil => simp [pyGet]
  | cons hd tl ih =>
    obtain ⟨k0, v0⟩ := hd
    simp only [List.map_cons, List.mem_cons] at h
    push_neg at h
    have hne : k0 ≠ k := fun hh => h.1 hh.symm
    simp only [pyGet, if_neg hne]
    exact ih h.2

theorem mem_of_pyGet_eq_some (l : List (κ × β)) (k : κ) (v : β)
    (h : pyGet l k = some v) : k ∈ l.map Prod.fst := by
  induction l with
  | nil => simp [pyGet] at h
  | cons hd tl ih =>
    obtain ⟨k0, v0⟩ := hd
    by_cases h0 : k0 = k
    · subst h0; simp
    · simp only [pyGet, if_neg h0] at h
      simp [ih h]

theorem pyGet_eq_none_iff_not_mem_keys (l : List (κ × β)) (k : κ) :
    pyGet l k = none ↔ k ∉ l.map Prod.fst := by
  constructor
  · intro h hm
    induction l with
    | nil => simp at hm
    | cons hd tl ih =>
      obtain ⟨k0, v0⟩ := hd
      simp only [List.map_cons, List.mem_cons] at hm
      by_cases h0 : k0 = k
      · simp [pyGet, if_pos h0] at h
      · simp only [pyGet, if_neg h0] at h
        exact ih h (hm.resolve_left (fun hh => h0 hh.symm))
  · exact pyGet_eq_none_of_not_mem l k

theorem pyGet_pyDel_self_of_nodup (l : List (κ × β)) (k : κ)
    (hnd : (l.map Prod.fst).Nodup) : pyGet (pyDel l k) k = none := by
  induction l with
  | nil => simp [pyDel, pyGet]
  | cons hd tl ih =>
    obtain ⟨k0, v0⟩ := hd
    simp only [List.map_cons, List.nodup_cons] at hnd
    by_cases h0 : k0 = k
    · subst h0
      simp only [pyDel, if_pos rfl]
      exact pyGet_eq_none_of_not_mem tl k0 hnd.1
    · simp only [pyDel, if_neg h0, pyGet, if_neg h0]
      exact ih hnd.2

theorem keys_pySet (l : List (κ × β)) (k : κ) (v : β) (h : k ∈ l.map Prod.fst) :
    (pySet l k v).map Prod.fst = l.map Prod.fst := by
  induction l with
  | nil => simp at h
  | cons hd tl ih =>
    obtain ⟨k0, v0⟩ := hd
    by_cases h0 : k0 = k
    · subst h0
      simp [pySet]
    · simp only [List.map_cons, List.mem_cons] at h
      rcases h with h | h

      · exact absurd h.symm h0
      · simp [pySet, if_neg h0, ih h]

theorem keys_pySet_not_mem (l : List (κ × β)) (k : κ) (v : β)
    (h : k ∉ l.map Prod.fst) :
    (pySet l k v).map Prod.fst = l.map Prod.fst ++ [k] := by
  induction l with
  | nil => simp [pySet]
  | cons hd tl ih =>
    obtain ⟨k0, v0⟩ := hd
    simp only [List.map_cons, List.mem_cons] at h
    push_neg at h
    have hne : k0 ≠ k := fun hh => h.1 hh.symm
    simp [pySet, if_neg hne, ih h.2]

theorem nodup_keys_pySet (l : List (κ × β)) (k : κ) (v : β)
    (h : (l.map Prod.fst).Nodup) : ((pySet l k v).map Prod.fst).Nodup := by
  by_cases hm : k ∈ l.map Prod.fst
  · rw [keys_pySet l k v hm]; exact h
  · rw [keys_pySet_not_mem l k v hm]
    rw [List.nodup_append]
    refine ⟨h, List.nodup_singleton k, ?_⟩
    intro a ha hb
    simp only [List.mem_singleton] at hb
    subst hb
    exact hm ha

theorem keys_pyDel_sublist (l : List (κ × β)) (k : κ) :
    ((pyDel l k).map Prod.fst).Sublist (l.map Prod.fst) := by
  induction l with
  | nil => simp [pyDel]
  | cons hd tl ih =>
    obtain ⟨k0, v0⟩ := hd
    by_cases h0 : k0 = k
    · simp only [pyDel, if_pos h0, List.map_cons]
      exact (List.sublist_cons_self _ _)
    · simp only [pyDel, if_neg h0, List.map_cons]
      exact ih.cons₂ _

theorem nodup_keys_pyDel (l : List (κ × β)) (k : κ)
    (h : (l.map Prod.fst).Nodup) : ((pyDel l k).map Prod.fst).Nodup :=
  (keys_pyDel_sublist l k).nodup h

end DictLemmas

/-! ## Minima -/

theorem omin_none_right (a : Option Nat) : omin a none = a := by
  cases a <;> rfl

theorem omin_assoc (a b c : Option Nat) :
    omin (omin a b) c = omin a (omin b c) := by
  cases a <;> cases b <;> cases c <;> simp [omin, Nat.min_assoc]

theorem listMin_cons (x : Nat) (l : List Nat) :
    listMin (x :: l) = omin (some x) (listMin l) := by
  cases h : listMin l <;> simp [listMin, omin, h]

theorem listMin_append (l1 l2 : List Nat) :
    listMin (l1 ++ l2) = omin (listMin l1) (listMin l2) := by
  induction l1 with
  | nil => simp [listMin, omin]
  | cons x tl ih => rw [List.cons_append, listMin_cons, ih, listMin_cons, omin_assoc]

/-! ## The best-route scans compute the minimum candidate cost -/

section BestPath

variable {α : Type} [DecidableEq α]

theorem directStep_map_fst (dest : α) (b : Option (Nat × Nat))
    (pe : Nat × (α × Nat)) :
    (DV.directStep dest b pe).map Prod.fst =
      omin (b.map Prod.fst)
        (if pe.2.1 = dest then some pe.2.2 else none) := by
  by_cases h : pe.2.1 = dest
  · cases b with
    | none => simp [DV.directStep, DV.bLT, h, omin]
    | some bc =>
      by_cases hlt : pe.2.2 < bc.1
      · simp [DV.directStep, DV.bLT, h, hlt, omin, Nat.min_eq_right (Nat.le_of_lt hlt)]
      · simp [DV.directStep, DV.bLT, h, hlt, omin, Nat.min_eq_left (Nat.le_of_not_lt hlt)]
  · cases b <;> simp [DV.directStep, h, omin]

theorem foldl_directStep_map_fst (dest : α) (l : List (Nat × (α × Nat)))
    (b : Option (Nat × Nat)) :
    (l.foldl (DV.directStep dest) b).map Prod.fst =
      omin (b.map Prod.fst) (listMin (directCostsL dest l)) := by
  induction l generalizing b with
  | nil => simp [directCostsL, listMin, omin_none_right]
  | cons pe tl ih =>
    rw [List.foldl_cons, ih, directStep_map_fst]
    simp only [directCostsL, List.filterMap_cons]
    by_cases h : pe.2.1 = dest
    · simp only [if_pos h]
      rw [listMin_cons, ← omin_assoc]
    · simp only [if_neg h, omin_none_right]

theorem throughStep_map_fst (ndvs : List (α × List (α × Nat))) (dest : α)
    (b : Option (Nat × Nat)) (pe : Nat × (α × Nat)) :
    (DV.throughStep ndvs dest b pe).map Prod.fst =
      omin (b.map Prod.fst)
        (match pyGet ndvs pe.2.1 with
         | none => none
         | some ndv =>
           match pyGet ndv dest with
           | none => none
           | some nc =>
             if nc < 16 ∧ pe.2.2 + nc < 16 then some (pe.2.2 + nc) else none) := by
  cases h1 : pyGet ndvs pe.2.1 with
  | none => simp [DV.throughStep, h1, omin_none_right]
  | some ndv =>
    cases h2 : pyGet ndv dest with
    | none => simp [DV.throughStep, h1, h2, omin_none_right]
    | some nc =>
      by_cases h3 : 16 ≤ nc
      · simp [DV.throughStep, h1, h2, h3, Nat.not_lt.mpr h3, omin_none_right]
      · have h3' : nc < 16 := Nat.lt_of_not_le h3
        by_cases h4 : pe.2.2 + nc < 16
        · cases b with
          | none => simp [DV.throughStep, h1, h2, h3, h3', h4, DV.bLT, omin]
          | some bc =>
            by_cases hlt : pe.2.2 + nc < bc.1
            · simp [DV.throughStep, h1, h2, h3, h3', h4, DV.bLT, hlt, omin,
                Nat.min_eq_right (Nat.le_of_lt hlt)]
            · simp [DV.throughStep, h1, h2, h3, h3', h4, DV.bLT, hlt, omin,
                Nat.min_eq_left (Nat.le_of_not_lt hlt)]
        · simp [DV.throughStep, h1, h2, h3, h3', h4, DV.bLT, omin_none_right]

theorem foldl_throughStep_map_fst (ndvs : List (α × List (α × Nat))) (dest : α)
    (l : List (Nat × (α × Nat))) (b : Option (Nat × Nat)) :
    (l.foldl (DV.throughStep ndvs dest) b).map Prod.fst =
      omin (b.map Prod.fst) (listMin (throughCostsL ndvs dest l)) := by
  induction l generalizing b with
  | nil => simp [throughCostsL, listMin, omin_none_right]
  | cons pe tl ih =>
    rw [List.foldl_cons, ih, throughStep_map_fst]
    simp only [throughCostsL, List.filterMap_cons]
    cases h1 : pyGet ndvs pe.2.1 with
    | none => simp [h1, omin_none_right]
    | some ndv =>
      cases h2 : pyGet ndv dest with
      | none => simp [h1, h2, omin_none_right]
      | some nc =>
        by_cases h3 : nc < 16 ∧ pe.2.2 + nc < 16
        · simp only [h1, h2, if_pos h3]
          rw [listMin_cons, ← omin_assoc]
        · simp only [h1, h2, if_neg h3, omin_none_right]

theorem best_path_map_fst (s : DVState α) (dest : α) :
    (DV.best_path s dest).map Prod.fst = listMin (candidateCosts s dest) := by
  unfold DV.best_path candidateCosts
  rw [foldl_throughStep_map_fst, foldl_directStep_map_fst, listMin_append]
  rfl

end BestPath

/-! ## Characterizing `update_distance_vector` -/

section UpdateDV

variable {α : Type} [DecidableEq α]

theorem relaxDest_dv_lookup_other (s : DVState α)
    (acc : List (α × (Nat × Option Nat)) × List (α × Nat) × Bool)
    (dest k : α) (hk : k ≠ dest) :
    pyGet (DV.relaxDest s acc dest).1 k = pyGet acc.1 k := by
  unfold DV.relaxDest
  have hne : dest ≠ k := fun h => hk h.symm
  by_cases h0 : dest = s.addr
  · simp [h0]
  · simp only [if_neg h0]
    cases DV.best_path s dest with
    | some bp =>
      cases pyGet acc.1 dest with
      | none => simp [pyGet_pySet_ne _ _ _ _ hne]
      | some cp =>
        by_cases hgt : cp.1 > bp.1 <;>
          simp [hgt, pyGet_pySet_ne _ _ _ _ hne]
    | none =>
      cases pyGet acc.1 dest with
      | some cp => simp [pyGet_pyDel_ne _ _ _ hne]
      | none => simp

theorem relaxDest_dv_nodup (s : DVState α)
    (acc : List (α × (Nat × Option Nat)) × List (α × Nat) × Bool) (dest : α)
    (h : (acc.1.map Prod.fst).Nodup) :
    ((DV.relaxDest s acc dest).1.map Prod.fst).Nodup := by
  unfold DV.relaxDest
  by_cases h0 : dest = s.addr
  · simpa [h0]
  · simp only [if_neg h0]
    cases DV.best_path s dest with
    | some bp =>
      cases pyGet acc.1 dest with
      | none => simpa using nodup_keys_pySet _ _ _ h
      | some cp =>
        by_cases hgt : cp.1 > bp.1
        · simpa [hgt] using nodup_keys_pySet _ _ _ h
        · simpa [hgt]
    | none =>
      cases pyGet acc.1 dest with
      | some cp => simpa using nodup_keys_pyDel _ _ h
      | none => simpa

theorem relaxDest_dv_lookup_self (s : DVState α)
    (acc : List (α × (Nat × Option Nat)) × List (α × Nat) × Bool)
    (dest : α) (hd : dest ≠ s.addr) (hnd : (acc.1.map Prod.fst).Nodup) :
    pyGet (DV.relaxDest s acc dest).1 dest =
      match DV.best_path s dest, pyGet acc.1 dest with
      | some bp, none => some (bp.1, some bp.2)
      | some bp, some cp =>
        if bp.1 < cp.1 then some (bp.1, some bp.2) else some cp
      | none, _ => none := by
  unfold DV.relaxDest
  simp only [if_neg hd]
  cases DV.best_path s dest with
  | some bp =>
    cases h1 : pyGet acc.1 dest with
    | none => simp [pyGet_pySet_self]
    | some cp =>
      by_cases hgt : cp.1 > bp.1
      · simp [hgt, pyGet_pySet_self]
      · have hnlt : ¬ bp.1 < cp.1 := hgt
        simp [hgt, h1, hnlt]
  | none =>
    cases h1 : pyGet acc.1 dest with
    | some cp => simp [pyGet_pyDel_self_of_nodup _ _ hnd]
    | none => simp [h1]

theorem foldl_relaxDest_dv_nodup (s : DVState α) (L : List α)
    (acc : List (α × (Nat × Option Nat)) × List (α × Nat) × Bool)
    (hnd : (acc.1.map Prod.fst).Nodup) :
    (((L.foldl (DV.relaxDest s) acc).1.map Prod.fst)).Nodup := by
  induction L generalizing acc with
  | nil => exact hnd
  | cons d tl ih =>
    rw [List.foldl_cons]
    exact ih _ (relaxDest_dv_nodup s acc d hnd)

theorem foldl_relaxDest_dv_lookup (s : DVState α) (L : List α) (hL : L.Nodup)
    (acc : List (α × (Nat × Option Nat)) × List (α × Nat) × Bool)
    (hnd : (acc.1.map Prod.fst).Nodup) (k : α) :
    ((k ∉ L ∨ k = s.addr) →
      pyGet (L.foldl (DV.relaxDest s) acc).1 k = pyGet acc.1 k) ∧
    (k ∈ L → k ≠ s.addr →
      pyGet (L.foldl (DV.relaxDest s) acc).1 k =
        match DV.best_path s k, pyGet acc.1 k with
        | some bp, none => some (bp.1, some bp.2)
        | some bp, some cp =>
          if bp.1 < cp.1 then some (bp.1, some bp.2) else some cp
        | none, _ => none) := by
  induction L generalizing acc with
  | nil =>
    exact ⟨fun _ => rfl, fun h => absurd h (List.not_mem_nil k)⟩
  | cons d tl ih =>
    simp only [List.nodup_cons] at hL
    have hnd1 := relaxDest_dv_nodup s acc d hnd
    constructor
    · intro hk
      rw [List.foldl_cons]
      have hktl : k ∉ tl ∨ k = s.addr := by
        rcases hk with hk | hk
        · exact Or.inl (fun h => hk (List.mem_cons_of_mem _ h))
        · exact Or.inr hk
      rw [(ih hL.2 _ hnd1).1 hktl]
      by_cases hkd : k = d
      · rcases hk with hk | hk
        · exact absurd (hkd ▸ List.mem_cons_self k tl) hk
        · subst hkd
          unfold DV.relaxDest
          rw [if_pos hk]
      · exact relaxDest_dv_lookup_other s acc d k hkd
    · intro hkmem hkaddr
      rw [List.foldl_cons]
      by_cases hkd : k = d
      · subst hkd
        rw [(ih hL.2 _ hnd1).1 (Or.inl hL.1)]
        exact relaxDest_dv_lookup_self s acc k hkaddr hnd
      · have hktl : k ∈ tl := by
          rcases List.mem_cons.mp hkmem with h | h
          · exact absurd h hkd
          · exact h
        rw [(ih hL.2 _ hnd1).2 hktl hkaddr,
          relaxDest_dv_lookup_other s acc d k hkd]

theorem all_destinations_nodup (s : DVState α) :
    (DV.all_destinations s).Nodup := by
  unfold DV.all_destinations
  exact List.nodup_dedup _

theorem update_dv_lookup (s : DVState α) (hnd : (s.dv.map Prod.fst).Nodup)
    (k : α) :
    ((k ∉ DV.all_destinations s ∨ k = s.addr) →
      pyGet (DV.update_distance_vector s).1.dv k = pyGet s.dv k) ∧
    (k ∈ DV.all_destinations s → k ≠ s.addr →
      pyGet (DV.update_distance_vector s).1.dv k =
        match DV.best_path s k, pyGet s.dv k with
        | some bp, none => some (bp.1, some bp.2)
        | some bp, some cp =>
          if bp.1 < cp.1 then some (bp.1, some bp.2) else some cp
        | none, _ => none) :=
  foldl_relaxDest_dv_lookup s (DV.all_destinations s) (all_destinations_nodup s)
    (s.dv, s.forwarding_table, false) hnd k

theorem update_dv_nodup (s : DVState α) (hnd : (s.dv.map Prod.fst).Nodup) :
    (((DV.update_distance_vector s).1.dv.map Prod.fst)).Nodup :=
  foldl_relaxDest_dv_nodup s (DV.all_destinations s)
    (s.dv, s.forwarding_table, false) hnd

end UpdateDV

/-! ## Claim C2 -/

/-- C2 is false of the code: starting from a fresh router, a new link to
node 1 of cost 20 installs `dv[1] = (20, port 1)`, although the claim demands
that any candidate of cost 16 or more be treated as unreachable, which leaves
destination 1 without a candidate and hence absent from `dv`. -/
theorem DV_claim_C2_counterexample :
    ¬ DVclaimC2 (DV.handle_new_link (DV.init (0 : Nat) 5) 1 1 20).1 := by
  intro h
  have h1 := h 1 20 (some 1) (by decide) (by decide)
  exact absurd h1 (by decide)

/-- C2 (amended): the stated equality holds only as the post-condition of
`update_distance_vector` itself, with the corrected candidate set: direct link
costs are not subject to the 16 ceiling; a route through a neighbor is a
candidate only when the advertised cost and the total are both below 16; and
the recomputation never raises an existing cost, so a destination already in
`dv` ends at the minimum of its old cost and the best candidate.  Destinations
outside the scanned set (and self) keep their entries untouched. -/
theorem DV_claim_C2_amended {α : Type} [DecidableEq α] (s : DVState α)
    (hnd : (s.dv.map Prod.fst).Nodup) (d : α) (hd : d ≠ s.addr) :
    (d ∈ DV.all_destinations s →
      match listMin (candidateCosts s d), pyGet s.dv d with
      | some m, none =>
        ∃ q, pyGet (DV.update_distance_vector s).1.dv d = some (m, q)
      | some m, some cp =>
        ∃ q, pyGet (DV.update_distance_vector s).1.dv d = some (min m cp.1, q)
      | none, _ => pyGet (DV.update_distance_vector s).1.dv d = none)
    ∧ (d ∉ DV.all_destinations s →
      pyGet (DV.update_distance_vector s).1.dv d = pyGet s.dv d) := by
  constructor
  · intro hmem
    have hlk := (update_dv_lookup s hnd d).2 hmem hd
    have hbp := best_path_map_fst s d
    cases hb : DV.best_path s d with
    | none =>
      rw [hb] at hbp hlk
      rw [← hbp]
      simp only [Option.map_none']
      cases hv : pyGet s.dv d <;> rw [hv] at hlk <;> simpa using hlk
    | some bp =>
      rw [hb] at hbp hlk
      rw [← hbp]
      simp only [Option.map_some']
      cases hv : pyGet s.dv d with
      | none =>
        rw [hv] at hlk
        exact ⟨some bp.2, hlk⟩
      | some cp =>
        rw [hv] at hlk
        have hlk2 : pyGet (DV.update_distance_vector s).1.dv d =
            if bp.1 < cp.1 then some (bp.1, some bp.2) else some cp := hlk
        show ∃ q, pyGet (DV.update_distance_vector s).1.dv d =
          some (min bp.1 cp.1, q)
        by_cases hlt : bp.1 < cp.1
        · rw [if_pos hlt] at hlk2
          exact ⟨some bp.2, by rw [hlk2, Nat.min_eq_left (Nat.le_of_lt hlt)]⟩
        · rw [if_neg hlt] at hlk2
          exact ⟨cp.2, by
            rw [hlk2, Nat.min_eq_right (Nat.le_of_not_lt hlt)]⟩
  · intro hmem
    exact (update_dv_lookup s hnd d).1 (Or.inl hmem)

/-- Witness for the amended C2 at the concrete state `dvStateC6` and
destination 30: the candidate minimum is `none` (neighbor 20 poisons 30), so
the destination is dropped by the recomputation. -/
theorem DV_claim_C2_amended_witness :
    ((dvStateC6.dv.map Prod.fst).Nodup ∧ (30 : Nat) ≠ dvStateC6.addr) ∧
    ((30 ∈ DV.all_destinations dvStateC6 →
      match listMin (candidateCosts dvStateC6 30), pyGet dvStateC6.dv 30 with
      | some m, none =>
        ∃ q, pyGet (DV.update_distance_vector dvStateC6).1.dv 30 = some (m, q)
      | some m, some cp =>
        ∃ q, pyGet (DV.update_distance_vector dvStateC6).1.dv 30 =
          some (min m cp.1, q)
      | none, _ => pyGet (DV.update_distance_vector dvStateC6).1.dv 30 = none)
    ∧ (30 ∉ DV.all_destinations dvStateC6 →
      pyGet (DV.update_distance_vector dvStateC6).1.dv 30 =
        pyGet dvStateC6.dv 30)) :=
  ⟨⟨by decide, by decide⟩,
    DV_claim_C2_amended dvStateC6 (by decide) 30 (by decide)⟩

/-! ## Claim C3: split horizon with poison reverse -/

section PoisonReverse

variable {α : Type} [DecidableEq α]

theorem foldl_poisonStep_lookup (port : Nat) (l : List (α × (Nat × Option Nat)))
    (m0 : List (α × Nat)) (hnd : (l.map Prod.fst).Nodup) (d : α) :
    pyGet (l.foldl (DV.poisonStep port) m0) d =
      match pyGet l d with
      | some cq => some (if cq.2 = some port then 16 else cq.1)
      | none => pyGet m0 d := by
  induction l generalizing m0 with
  | nil => simp [pyGet]
  | cons dc tl ih =>
    obtain ⟨k, c, q⟩ := dc
    simp only [List.map_cons, List.nodup_cons] at hnd
    rw [List.foldl_cons]
    by_cases hkd : k = d
    · subst hkd
      have htl : pyGet tl k = none := pyGet_eq_none_of_not_mem tl k hnd.1
      rw [ih _ hnd.2, htl]
      simp only [pyGet, if_pos rfl]
      unfold DV.poisonStep
      by_cases hq : q = some port
      · simp [hq, pyGet_pySet_self]
      · simp [hq, pyGet_pySet_self]
    · have hstep : pyGet (DV.poisonStep port m0 (k, c, q)) d = pyGet m0 d := by
        unfold DV.poisonStep
        by_cases hq : q = some port <;>
          simp [hq, pyGet_pySet_ne _ _ _ _ hkd]
      rw [ih _ hnd.2, hstep]
      simp only [pyGet, if_neg hkd]

/-- C3: the vector sent through port `p` reports 16 for every destination whose
selected route leaves through `p`, reports self at cost 0, reports the true
cost for every other destination of `dv`, and in particular never reports a
cost below 16 for a destination routed back through `p`.  The hypotheses are
the `dv[self] = (0, None)` invariant stated by the spec and key uniqueness of
the `dv` dict. -/
theorem DV_claim_C3 (s : DVState α) (p : Nat) (nb : α × Nat)
    (hnb : pyGet s.neighbors p = some nb)
    (hself : pyGet s.dv s.addr = some (0, none))
    (hnd : (s.dv.map Prod.fst).Nodup) :
    DV.send_dv_to_neighbor s p =
      [(p, DVPacket.routing s.addr nb.1 (some (DV.simplified_dv s p)))] ∧
    pyGet (DV.simplified_dv s p) s.addr = some 0 ∧
    (∀ d c q, pyGet s.dv d = some (c, q) →
      (q = some p → pyGet (DV.simplified_dv s p) d = some 16) ∧
      (q ≠ some p → pyGet (DV.simplified_dv s p) d = some c)) ∧
    (∀ d c q, pyGet s.dv d = some (c, q) → q = some p →
      ∀ c', pyGet (DV.simplified_dv s p) d = some c' → ¬ c' < 16) := by
  have hmain : ∀ d, pyGet (DV.simplified_dv s p) d =
      match pyGet s.dv d with
      | some cq => some (if cq.2 = some p then 16 else cq.1)
      | none => pyGet [(s.addr, 0)] d :=
    fun d => foldl_poisonStep_lookup p s.dv [(s.addr, 0)] hnd d
  refine ⟨?_, ?_, ?_, ?_⟩
  · unfold DV.send_dv_to_neighbor
    rw [hnb]
  · rw [hmain s.addr, hself]
    simp
  · intro d c q hd
    constructor
    · intro hq
      rw [hmain d, hd, hq]
      simp
    · intro hq
      rw [hmain d, hd]
      simp [hq]
  · intro d c q hd hq c' hc'
    rw [hmain d, hd] at hc'
    have h2 : some (if q = some p then 16 else c) = some c' := hc'
    rw [if_pos hq] at h2
    have h3 := Option.some.inj h2
    omega

end PoisonReverse

/-- Witness for C3 at the concrete state `dvStateC6`, port 1 (neighbor 10):
destinations 10 and 30 route through port 1 and are poisoned. -/
theorem DV_claim_C3_witness :
    (pyGet dvStateC6.neighbors 1 = some (10, 1) ∧
     pyGet dvStateC6.dv dvStateC6.addr = some (0, none) ∧
     (dvStateC6.dv.map Prod.fst).Nodup) ∧
    (DV.send_dv_to_neighbor dvStateC6 1 =
      [(1, DVPacket.routing dvStateC6.addr (10, 1).1
        (some (DV.simplified_dv dvStateC6 1)))] ∧
    pyGet (DV.simplified_dv dvStateC6 1) dvStateC6.addr = some 0 ∧
    (∀ d c q, pyGet dvStateC6.dv d = some (c, q) →
      (q = some 1 → pyGet (DV.simplified_dv dvStateC6 1) d = some 16) ∧
      (q ≠ some 1 → pyGet (DV.simplified_dv dvStateC6 1) d = some c)) ∧
    (∀ d c q, pyGet dvStateC6.dv d = some (c, q) → q = some 1 →
      ∀ c', pyGet (DV.simplified_dv dvStateC6 1) d = some c' → ¬ c' < 16)) :=
  ⟨⟨by decide, by decide, by decide⟩,
    DV_claim_C3 dvStateC6 1 (10, 1) (by decide) (by decide) (by decide)⟩

/-! ## Broadcast sends -/

section BroadcastSends

variable {α : Type} [DecidableEq α]

theorem pyGet_isSome_of_mem {κ β : Type} [DecidableEq κ] (l : List (κ × β))
    (kv : κ × β) (h : kv ∈ l) : (pyGet l kv.1).isSome = true := by
  induction l with
  | nil => simp at h
  | cons hd tl ih =>
    obtain ⟨k0, v0⟩ := hd
    by_cases h0 : k0 = kv.1
    · simp [pyGet, h0]
    · rcases List.mem_cons.mp h with h1 | h1
      · exact absurd (congrArg Prod.fst h1.symm) h0
      · simp only [pyGet, if_neg h0]
        exact ih h1

theorem send_dv_to_neighbor_of_isSome (s : DVState α) (q : Nat)
    (h : (pyGet s.neighbors q).isSome = true) :
    ∃ pkt, DV.send_dv_to_neighbor s q = [(q, pkt)] := by
  unfold DV.send_dv_to_neighbor
  cases hq : pyGet s.neighbors q with
  | none => rw [hq] at h; simp at h
  | some nb => exact ⟨_, rfl⟩

theorem foldl_sends_map_fst (s' : DVState α) (l : List (Nat × (α × Nat)))
    (hsub : ∀ pe ∈ l, (pyGet s'.neighbors pe.1).isSome = true)
    (acc : List (Nat × DVPacket α)) :
    ((l.foldl (fun acc pe => acc ++ DV.send_dv_to_neighbor s' pe.1) acc).map
        Prod.fst) = acc.map Prod.fst ++ l.map Prod.fst := by
  induction l generalizing acc with
  | nil => simp
  | cons pe tl ih =>
    rw [List.foldl_cons]
    obtain ⟨pkt, hpkt⟩ :=
      send_dv_to_neighbor_of_isSome s' pe.1 (hsub pe (List.mem_cons_self pe tl))
    rw [ih (fun x hx => hsub x (List.mem_cons_of_mem _ hx)), hpkt]
    simp

theorem broadcast_dv_sends_map_fst (s : DVState α) :
    (DV.broadcast_dv s).2.map Prod.fst = s.neighbors.map Prod.fst := by
  unfold DV.broadcast_dv
  rw [foldl_sends_map_fst _ _ (fun pe hpe => pyGet_isSome_of_mem _ pe hpe) []]
  simp

theorem broadcast_dv_sends_ne_nil (s : DVState α) (h : s.neighbors ≠ []) :
    (DV.broadcast_dv s).2 ≠ [] := by
  intro hnil
  have := broadcast_dv_sends_map_fst s
  rw [hnil] at this
  exact h (by simpa using this.symm)

end BroadcastSends

/-! ## Claim C6 -/

/-- C6 is false of the code: at `dvStateC6`, neighbor 10 re-advertises
`{10: 0}` (identical on its own keys to the stored vector, but silently
dropping destination 30).  The code detects no change, skips the
recomputation, and sends nothing; the claim's prescription — store, recompute,
broadcast iff the recomputation changed the vector — would drop destination 30
(whose only remaining advertisement is poisoned) and broadcast. -/
theorem DV_claim_C6_counterexample :
    DV.handle_packet dvStateC6 1 (DVPacket.routing 10 0 (some [(10, 0)])) ≠
      DVclaimC6predicted dvStateC6 10 [(10, 0)] := by decide

/-- C6 (amended): the received vector is stored unconditionally, but the code
recomputes the local vector only when the received vector differs from the
stored one on the received vector's own destinations (or the neighbor is
new); in that case it broadcasts exactly when the recomputation reports a
change.  When no difference is detected the handler stores the vector and
stops: it neither recomputes nor sends. -/
theorem DV_claim_C6_amended {α : Type} [DecidableEq α] (s : DVState α)
    (port : Nat) (src dst : α) (nb : α × Nat) (received_dv : List (α × Nat))
    (hnb : pyGet s.neighbors port = some nb) :
    pyGet (DV.handle_packet s port
        (DVPacket.routing src dst (some received_dv))).1.neighbor_dvs nb.1 =
      some received_dv ∧
    ((match pyGet s.neighbor_dvs nb.1 with
      | none => true
      | some old_dv =>
        received_dv.any (fun dc => pyGet old_dv dc.1 ≠ some dc.2)) = false →
      DV.handle_packet s port (DVPacket.routing src dst (some received_dv)) =
        ({ s with neighbor_dvs := pySet s.neighbor_dvs nb.1 received_dv }, [])) ∧
    ((match pyGet s.neighbor_dvs nb.1 with
      | none => true
      | some old_dv =>
        received_dv.any (fun dc => pyGet old_dv dc.1 ≠ some dc.2)) = true →
      DV.handle_packet s port (DVPacket.routing src dst (some received_dv)) =
        (match DV.update_distance_vector
            { s with neighbor_dvs := pySet s.neighbor_dvs nb.1 received_dv } with
         | (s2, true) => DV.broadcast_dv s2
         | (s2, false) => (s2, [])) ∧
      ((DV.handle_packet s port
          (DVPacket.routing src dst (some received_dv))).2 = [] ↔
        (DV.update_distance_vector
          { s with neighbor_dvs := pySet s.neighbor_dvs nb.1 received_dv }).2 =
          false)) := by
  have hne : s.neighbors ≠ [] := by
    intro h
    rw [h] at hnb
    simp [pyGet] at hnb
  have hstep : DV.handle_packet s port
      (DVPacket.routing src dst (some received_dv)) =
      (if (match pyGet s.neighbor_dvs nb.1 with
           | none => true
           | some old_dv =>
             received_dv.any (fun dc => pyGet old_dv dc.1 ≠ some dc.2)) then
        match DV.update_distance_vector
            { s with neighbor_dvs := pySet s.neighbor_dvs nb.1 received_dv } with
        | (s2, true) => DV.broadcast_dv s2
        | (s2, false) => (s2, [])
      else ({ s with neighbor_dvs := pySet s.neighbor_dvs nb.1 received_dv }, [])) := by
    unfold DV.handle_packet
    rw [hnb]
  cases hch : (match pyGet s.neighbor_dvs nb.1 with
      | none => true
      | some old_dv =>
        received_dv.any (fun dc => pyGet old_dv dc.1 ≠ some dc.2)) with
  | false =>
    rw [hch] at hstep
    simp only [Bool.false_eq_true, if_false] at hstep
    refine ⟨?_, fun _ => hstep, fun h => absurd h (by simp)⟩
    rw [hstep]
    exact pyGet_pySet_self _ _ _
  | true =>
    rw [hch] at hstep
    simp only [if_true] at hstep
    cases hupd : DV.update_distance_vector
        { s with neighbor_dvs := pySet s.neighbor_dvs nb.1 received_dv } with
    | mk s2 b =>
      have hndvs2 : s2.neighbor_dvs = pySet s.neighbor_dvs nb.1 received_dv := by
        have := congrArg (fun x => x.1.neighbor_dvs) hupd
        exact this.symm.trans rfl
      have hnbs2 : s2.neighbors = s.neighbors := by
        have := congrArg (fun x => x.1.neighbors) hupd
        exact this.symm.trans rfl
      rw [hupd] at hstep
      cases b with
      | true =>
        have hstep2 : DV.handle_packet s port
            (DVPacket.routing src dst (some received_dv)) =
            DV.broadcast_dv s2 := hstep
        refine ⟨?_, fun h => absurd h (by simp), fun _ => ⟨?_, ?_⟩⟩
        · rw [hstep2]
          show pyGet s2.neighbor_dvs nb.1 = some received_dv
          rw [hndvs2]
          exact pyGet_pySet_self _ _ _
        · exact hstep2
        · rw [hstep2]
          constructor
          · intro h
            exact absurd h (broadcast_dv_sends_ne_nil s2 (hnbs2 ▸ hne))
          · intro h
            simp at h
      | false =>
        have hstep2 : DV.handle_packet s port
            (DVPacket.routing src dst (some received_dv)) =
            (s2, []) := hstep
        refine ⟨?_, fun h => absurd h (by simp), fun _ => ⟨?_, ?_⟩⟩
        · rw [hstep2]
          show pyGet s2.neighbor_dvs nb.1 = some received_dv
          rw [hndvs2]
          exact pyGet_pySet_self _ _ _
        · exact hstep2
        · rw [hstep2]
          simp

/-- Witness for the amended C6 at `dvStateC6`, port 1: neighbor 10
re-advertises its stored vector, so the handler only stores it and stays
silent. -/
theorem DV_claim_C6_amended_witness :
    pyGet dvStateC6.neighbors 1 = some (10, 1) ∧
    (pyGet (DV.handle_packet dvStateC6 1
        (DVPacket.routing 10 0 (some [(10, 0)]))).1.neighbor_dvs (10, 1).1 =
      some [(10, 0)] ∧
    ((match pyGet dvStateC6.neighbor_dvs (10, 1).1 with
      | none => true
      | some old_dv =>
        [(10, 0)].any (fun dc => pyGet old_dv dc.1 ≠ some dc.2)) = false →
      DV.handle_packet dvStateC6 1 (DVPacket.routing 10 0 (some [(10, 0)])) =
        ({ dvStateC6 with
            neighbor_dvs := pySet dvStateC6.neighbor_dvs (10, 1).1 [(10, 0)] },
          [])) ∧
    ((match pyGet dvStateC6.neighbor_dvs (10, 1).1 with
      | none => true
      | some old_dv =>
        [(10, 0)].any (fun dc => pyGet old_dv dc.1 ≠ some dc.2)) = true →
      DV.handle_packet dvStateC6 1 (DVPacket.routing 10 0 (some [(10, 0)])) =
        (match DV.update_distance_vector
            { dvStateC6 with
                neighbor_dvs := pySet dvStateC6.neighbor_dvs (10, 1).1 [(10, 0)] } with
         | (s2, true) => DV.broadcast_dv s2
         | (s2, false) => (s2, [])) ∧
      ((DV.handle_packet dvStateC6 1
          (DVPacket.routing 10 0 (some [(10, 0)]))).2 = [] ↔
        (DV.update_distance_vector
          { dvStateC6 with
              neighbor_dvs := pySet dvStateC6.neighbor_dvs (10, 1).1 [(10, 0)] }).2 =
          false))) :=
  ⟨by decide, DV_claim_C6_amended dvStateC6 1 10 0 (10, 1) [(10, 0)] (by decide)⟩

/-! ## Claim C7: link removal -/

section RemoveLink

variable {α : Type} [DecidableEq α]

theorem foldl_pyDel_lookup {κ β : Type} [DecidableEq κ] (R : List κ)
    (D : List (κ × β)) (hnd : (D.map Prod.fst).Nodup) (k : κ) :
    pyGet (R.foldl pyDel D) k = if k ∈ R then none else pyGet D k := by
  induction R generalizing D with
  | nil => simp
  | cons r tl ih =>
    rw [List.foldl_cons]
    have hnd1 := nodup_keys_pyDel D r hnd
    by_cases hk : k = r
    · subst hk
      rw [ih _ hnd1]
      by_cases hmem : k ∈ tl
      · simp [hmem]
      · simp [hmem, pyGet_pyDel_self_of_nodup D k hnd]
    · rw [ih _ hnd1, pyGet_pyDel_ne D r k (fun h => hk h.symm)]
      by_cases hmem : k ∈ tl
      · simp [hmem]
      · simp [hmem, hk]

theorem foldl_evict_eq (R : List α) (st : DVState α) :
    R.foldl (fun st dest =>
      { st with dv := pyDel st.dv dest,
                forwarding_table := pyDel st.forwarding_table dest }) st =
    { st with dv := R.foldl pyDel st.dv,
              forwarding_table := R.foldl pyDel st.forwarding_table } := by
  induction R generalizing st with
  | nil => rfl
  | cons r tl ih =>
    rw [List.foldl_cons, List.foldl_cons, List.foldl_cons]
    rw [ih]

theorem mem_routes_iff (l : List (α × (Nat × Option Nat))) (port : Nat)
    (hnd : (l.map Prod.fst).Nodup) (k : α) :
    k ∈ (l.filter (fun dc => dc.2.2 = some port)).map Prod.fst ↔
      ∃ c, pyGet l k = some (c, some port) := by
  induction l with
  | nil => simp [pyGet]
  | cons hd tl ih =>
    obtain ⟨k0, c0, q0⟩ := hd
    simp only [List.map_cons, List.nodup_cons] at hnd
    by_cases hq : q0 = some port
    · rw [List.filter_cons_of_pos (by simpa using hq)]
      by_cases hk : k0 = k
      · subst hk
        constructor
        · intro _
          exact ⟨c0, by simp [pyGet, hq]⟩
        · intro _
          exact List.mem_cons_self _ _
      · simp only [List.map_cons, List.mem_cons]
        constructor
        · intro h
          rcases h with h | h
          · exact absurd h.symm hk
          · have h2 := (ih hnd.2).mp h
            simpa [pyGet, hk] using h2
        · intro h
          right
          exact (ih hnd.2).mpr (by simpa [pyGet, hk] using h)
    · rw [List.filter_cons_of_neg (by simpa using hq)]
      by_cases hk : k0 = k
      · subst hk
        rw [ih hnd.2]
        constructor
        · intro ⟨c, hc⟩
          exact absurd (mem_of_pyGet_eq_some tl k0 _ hc) hnd.1
        · intro ⟨c, hc⟩
          simp only [pyGet, if_pos rfl] at hc
          have : q0 = some port := congrArg (fun cq => cq.2) (Option.some.inj hc)
          exact absurd this hq
      · rw [ih hnd.2]
        simp [pyGet, hk]

/-- C7: when the removed port is a known neighbor, the neighbor and its stored
vector are dropped, every destination whose `dv` route leaves through that
port is evicted from `dv` and `forwarding_table`, the vector is then
recomputed from the surviving state, and the result is broadcast
unconditionally — one packet per remaining neighbor. -/
theorem DV_claim_C7 (s : DVState α) (port : Nat) (nb : α × Nat)
    (hnb : pyGet s.neighbors port = some nb)
    (hdv : (s.dv.map Prod.fst).Nodup)
    (hft : (s.forwarding_table.map Prod.fst).Nodup)
    (hnbs : (s.neighbors.map Prod.fst).Nodup)
    (hndvs : (s.neighbor_dvs.map Prod.fst).Nodup) :
    ∃ s2 : DVState α,
      pyGet s2.neighbors port = none ∧
      (∀ q, q ≠ port → pyGet s2.neighbors q = pyGet s.neighbors q) ∧
      pyGet s2.neighbor_dvs nb.1 = none ∧
      (∀ a, a ≠ nb.1 → pyGet s2.neighbor_dvs a = pyGet s.neighbor_dvs a) ∧
      (∀ k, pyGet s2.dv k =
        match pyGet s.dv k with
        | some (_, some q) => if q = port then none else pyGet s.dv k
        | v => v) ∧
      (∀ k, pyGet s2.forwarding_table k =
        match pyGet s.dv k with
        | some (_, some q) =>
          if q = port then none else pyGet s.forwarding_table k
        | _ => pyGet s.forwarding_table k) ∧
      DV.handle_remove_link s port =
        DV.broadcast_dv (DV.update_distance_vector s2).1 ∧
      (DV.handle_remove_link s port).2.map Prod.fst =
        (DV.update_distance_vector s2).1.neighbors.map Prod.fst := by
  refine ⟨((s.dv.filter (fun dc => dc.2.2 = some port)).map Prod.fst).foldl
    (fun st dest =>
      { st with dv := pyDel st.dv dest,
                forwarding_table := pyDel st.forwarding_table dest })
    { s with neighbors := pyDel s.neighbors port,
             neighbor_dvs := pyDel s.neighbor_dvs nb.1 },
    ?_, ?_, ?_, ?_, ?_, ?_, ?_, ?_⟩
  · rw [foldl_evict_eq]
    exact pyGet_pyDel_self_of_nodup _ _ hnbs
  · intro q hq
    rw [foldl_evict_eq]
    exact pyGet_pyDel_ne _ _ _ (fun h => hq h.symm)
  · rw [foldl_evict_eq]
    exact pyGet_pyDel_self_of_nodup _ _ hndvs
  · intro a ha
    rw [foldl_evict_eq]
    exact pyGet_pyDel_ne _ _ _ (fun h => ha h.symm)
  · intro k
    rw [foldl_evict_eq]
    show pyGet (((s.dv.filter (fun dc => dc.2.2 = some port)).map Prod.fst).foldl
      pyDel s.dv) k = _
    rw [foldl_pyDel_lookup _ _ hdv]
    cases hv : pyGet s.dv k with
    | none =>
      have hnm : k ∉ (s.dv.filter (fun dc => dc.2.2 = some port)).map Prod.fst := by
        rw [mem_routes_iff _ _ hdv]
        rintro ⟨c, hc⟩
        rw [hv] at hc
        exact Option.noConfusion hc
      rw [if_neg hnm]
    | some cq =>
      obtain ⟨c, q⟩ := cq
      cases q with
      | none =>
        have hnm : k ∉ (s.dv.filter (fun dc => dc.2.2 = some port)).map Prod.fst := by
          rw [mem_routes_iff _ _ hdv]
          rintro ⟨c2, hc⟩
          rw [hv] at hc
          simp at hc
        rw [if_neg hnm]
      | some qp =>
        by_cases hqp : qp = port
        · have hm : k ∈ (s.dv.filter (fun dc => dc.2.2 = some port)).map Prod.fst := by
            rw [mem_routes_iff _ _ hdv]
            exact ⟨c, by rw [hv, hqp]⟩
          rw [if_pos hm]
          simp [hqp]
        · have hnm : k ∉ (s.dv.filter (fun dc => dc.2.2 = some port)).map Prod.fst := by
            rw [mem_routes_iff _ _ hdv]
            rintro ⟨c2, hc⟩
            rw [hv] at hc
            simp only [Option.some.injEq, Prod.mk.injEq] at hc
            exact hqp hc.2
          rw [if_neg hnm]
          simp [hqp, hv]
  · intro k
    rw [foldl_evict_eq]
    show pyGet (((s.dv.filter (fun dc => dc.2.2 = some port)).map Prod.fst).foldl
      pyDel s.forwarding_table) k = _
    rw [foldl_pyDel_lookup _ _ hft]
    cases hv : pyGet s.dv k with
    | none =>
      have hnm : k ∉ (s.dv.filter (fun dc => dc.2.2 = some port)).map Prod.fst := by
        rw [mem_routes_iff _ _ hdv]
        rintro ⟨c, hc⟩
        rw [hv] at hc
        exact Option.noConfusion hc
      rw [if_neg hnm]
    | some cq =>
      obtain ⟨c, q⟩ := cq
      cases q with
      | none =>
        have hnm : k ∉ (s.dv.filter (fun dc => dc.2.2 = some port)).map Prod.fst := by
          rw [mem_routes_iff _ _ hdv]
          rintro ⟨c2, hc⟩
          rw [hv] at hc
          simp at hc
        rw [if_neg hnm]
      | some qp =>
        by_cases hqp : qp = port
        · have hm : k ∈ (s.dv.filter (fun dc => dc.2.2 = some port)).map Prod.fst := by
            rw [mem_routes_iff _ _ hdv]
            exact ⟨c, by rw [hv, hqp]⟩
          rw [if_pos hm]
          simp [hqp]
        · have hnm : k ∉ (s.dv.filter (fun dc => dc.2.2 = some port)).map Prod.fst := by
            rw [mem_routes_iff _ _ hdv]
            rintro ⟨c2, hc⟩
            rw [hv] at hc
            simp only [Option.some.injEq, Prod.mk.injEq] at hc
            exact hqp hc.2
          rw [if_neg hnm]
          simp [hqp]
  · unfold DV.handle_remove_link
    rw [hnb]
  · unfold DV.handle_remove_link
    rw [hnb]
    rw [broadcast_dv_sends_map_fst]

end RemoveLink

/-- Witness for C7 at `dvStateC6`, removing port 1 (neighbor 10). -/
theorem DV_claim_C7_witness :
    (pyGet dvStateC6.neighbors 1 = some (10, 1) ∧
     (dvStateC6.dv.map Prod.fst).Nodup ∧
     (dvStateC6.forwarding_table.map Prod.fst).Nodup ∧
     (dvStateC6.neighbors.map Prod.fst).Nodup ∧
     (dvStateC6.neighbor_dvs.map Prod.fst).Nodup) ∧
    (∃ s2 : DVState Nat,
      pyGet s2.neighbors 1 = none ∧
      (∀ q, q ≠ 1 → pyGet s2.neighbors q = pyGet dvStateC6.neighbors q) ∧
      pyGet s2.neighbor_dvs (10, 1).1 = none ∧
      (∀ a, a ≠ (10, 1).1 →
        pyGet s2.neighbor_dvs a = pyGet dvStateC6.neighbor_dvs a) ∧
      (∀ k, pyGet s2.dv k =
        match pyGet dvStateC6.dv k with
        | some (_, some q) => if q = 1 then none else pyGet dvStateC6.dv k
        | v => v) ∧
      (∀ k, pyGet s2.forwarding_table k =
        match pyGet dvStateC6.dv k with
        | some (_, some q) =>
          if q = 1 then none else pyGet dvStateC6.forwarding_table k
        | _ => pyGet dvStateC6.forwarding_table k) ∧
      DV.handle_remove_link dvStateC6 1 =
        DV.broadcast_dv (DV.update_distance_vector s2).1 ∧
      (DV.handle_remove_link dvStateC6 1).2.map Prod.fst =
        (DV.update_distance_vector s2).1.neighbors.map Prod.fst) :=
  ⟨⟨by decide, by decide, by decide, by decide, by decide⟩,
    DV_claim_C7 dvStateC6 1 (10, 1) (by decide) (by decide) (by decide)
      (by decide) (by decide)⟩

/-! ## The LS engine (`LSrouter.py`)

State and packets mirror `LSrouter.__init__`.  Sequence numbers and
timestamps are `Int` (arbitrary Python ints may arrive in packets).
`broadcast_link_state` reads the wall clock; the handlers that can reach it
take that reading as an explicit `wall` argument. -/

/-- State of an `LSrouter` instance. -/
structure LSState (α : Type) where
  addr : α
  heartbeat_time : Int
  last_sent : Int
  /-- `ls_db`: origin ↦ (neighbor ↦ cost). -/
  ls_db : List (α × List (α × Nat))
  /-- `seq_nums`: origin ↦ last accepted sequence number. -/
  seq_nums : List (α × Int)
  /-- `neighbors`: port ↦ (neighbor address, cost). -/
  neighbors : List (Nat × (α × Nat))
  /-- `forwarding_table`: destination ↦ out-port. -/
  forwarding_table : List (α × Nat)
  /-- `packet_history`: (origin, sequence) pairs already processed. -/
  packet_history : List (α × Int)
deriving DecidableEq, Repr

/-- Packets exchanged by LS routers.  A routing packet's `content` is the
decoded `(router, seq, links)` record; `none` stands for content on which
the decode raises before anything is mutated (`json.loads`, one of the three
field accesses, or hashing `(router, seq)`).  A record whose `router` and
`seq` decode but whose `links` object is garbage is embedded by
`LS.handle_packet_badlinks` below and is not a silent no-op. -/
inductive LSPacket (α : Type) where
  | traceroute (src_addr dst_addr : α)
  | routing (src_addr dst_addr : α) (content : Option (α × Int × List (α × Nat)))
deriving DecidableEq, Repr

/-- The running state of `calculate_forwarding_table`'s Dijkstra loop. -/
structure DijkState (α : Type) where
  distances : List (α × Nat)
  predecessors : List (α × α)
  first_hops : List (α × Nat)
  pq : List (Nat × α)
deriving DecidableEq, Repr

namespace LS

variable {α : Type} [LinearOrder α]

/-- `LSrouter.__init__`. -/
def init (addr : α) (heartbeat_time : Int) : LSState α :=
  { addr := addr
    heartbeat_time := heartbeat_time
    last_sent := 0
    ls_db := [(addr, [])]
    seq_nums := [(addr, 0)]
    neighbors := []
    forwarding_table := []
    packet_history := [] }

/-- `heapq` compares its `(distance, node)` tuples lexicographically. -/
def pqLEb (x y : Nat × α) : Bool :=
  decide (x.1 < y.1) || (decide (x.1 = y.1) && decide (x.2 ≤ y.2))

/-- `heapq.heappop`: remove and return the least tuple of the queue (the heap
layout is abstracted away; only the extract-min contract is modelled). -/
def popMin : List (Nat × α) → Option ((Nat × α) × List (Nat × α))
  | [] => none
  | x :: rest =>
    match popMin rest with
    | none => some (x, [])
    | some (m, rest2) =>
      if pqLEb x m then some (x, rest) else some (m, x :: rest2)

/-- One relaxation `current → neighbor` of the Dijkstra loop: on improvement,
record distance and predecessor, set the first hop (the connecting port when
`current` is self, otherwise inherited from `current`), and push. -/
def relaxEdge (s : LSState α) (current : α) (dist : Nat) (st : DijkState α)
    (nc : α × Nat) : DijkState α :=
  let neighbor := nc.1
  let new_dist := dist + nc.2
  let improves : Bool :=
    match pyGet st.distances neighbor with
    | none => true
    | some dn => decide (new_dist < dn)
  if improves then
    { distances := pySet st.distances neighbor new_dist
      predecessors := pySet st.predecessors neighbor current
      first_hops :=
        if current = s.addr then
          s.neighbors.foldl
            (fun fh pe => if pe.2.1 = neighbor then pySet fh neighbor pe.1 else fh)
            st.first_hops
        else
          match pyGet st.first_hops current with
          | some fhc => pySet st.first_hops neighbor fhc
          | none => st.first_hops
      pq := st.pq ++ [(new_dist, neighbor)] }
  else st

/-- All node names occurring in `ls_db` (origins, edge targets, and self):
the universe the Dijkstra loop can ever mention. -/
def lsNodes (s : LSState α) : Finset α :=
  (s.ls_db.map Prod.fst
    ++ (s.ls_db.map (fun r => r.2.map Prod.fst)).flatten
    ++ [s.addr]).toFinset

/-- Number of nodes of the universe not yet discovered:
first component of the loop's termination measure. -/
def missingCount (s : LSState α) (st : DijkState α) : Nat :=
  ((lsNodes s).filter (fun v => pyGet st.distances v = none)).card

/-- Sum of all tentative distances: second component of the measure. -/
def distSum (st : DijkState α) : Nat :=
  (st.distances.map Prod.snd).sum

/-- How one Dijkstra step may change the measure: unchanged state, a node
discovered, or an improvement that lowers the distance sum. -/
def DijkRel (s : LSState α) (st st2 : DijkState α) : Prop :=
  st2 = st ∨ missingCount s st2 < missingCount s st ∨
    (missingCount s st2 = missingCount s st ∧ distSum st2 < distSum st)

end LS

/-! ## Termination of the Dijkstra loop -/

theorem pair_mem_of_pyGet {κ β : Type} [DecidableEq κ]
    (l : List (κ × β)) (k : κ) (v : β) (h : pyGet l k = some v) : (k, v) ∈ l := by
  induction l with
  | nil => exact Option.noConfusion h
  | cons hd tl ih =>
    obtain ⟨k0, v0⟩ := hd
    by_cases h0 : k0 = k
    · subst h0
      simp only [pyGet, if_pos rfl] at h
      obtain rfl : v0 = v := Option.some.inj h
      exact List.mem_cons_self _ _
    · simp only [pyGet, if_neg h0] at h
      exact List.mem_cons_of_mem _ (ih h)

namespace LS

variable {α : Type} [LinearOrder α]

theorem popMin_eq_none_iff (pq : List (Nat × α)) : popMin pq = none ↔ pq = [] := by
  cases pq with
  | nil => simp [popMin]
  | cons x rest =>
    simp only [popMin]
    cases popMin rest with
    | none => simp
    | some mr =>
      obtain ⟨m, r⟩ := mr
      by_cases hc : pqLEb x m <;> simp [hc]

theorem popMin_rest_length (pq : List (Nat × α)) (m : Nat × α)
    (rest : List (Nat × α)) (h : popMin pq = some (m, rest)) :
    rest.length + 1 = pq.length := by
  induction pq generalizing m rest with
  | nil => exact Option.noConfusion h
  | cons x tl ih =>
    unfold popMin at h
    cases htl : popMin tl with
    | none =>
      obtain rfl : tl = [] := (popMin_eq_none_iff tl).mp htl
      rw [htl] at h
      have hred : some (x, ([] : List (Nat × α))) = some (m, rest) := h
      obtain ⟨h1, h2⟩ := Prod.mk.inj (Option.some.inj hred)
      simp [← h2]
    | some mr =>
      obtain ⟨m2, rest2⟩ := mr
      rw [htl] at h
      have hred : (if pqLEb x m2 = true then some (x, tl)
          else some (m2, x :: rest2)) = some (m, rest) := h
      by_cases hc : pqLEb x m2
      · rw [if_pos hc] at hred
        obtain ⟨h1, h2⟩ := Prod.mk.inj (Option.some.inj hred)
        simp [← h2]
      · rw [if_neg hc] at hred
        obtain ⟨h1, h2⟩ := Prod.mk.inj (Option.some.inj hred)
        have hlen := ih m2 rest2 htl
        rw [← h2]
        simp only [List.length_cons]
        omega

theorem row_keys_mem_lsNodes (s : LSState α) (current : α)
    (row : List (α × Nat)) (h : pyGet s.ls_db current = some row) :
    ∀ nc ∈ row, nc.1 ∈ lsNodes s := by
  intro nc hnc
  have hpair := pair_mem_of_pyGet s.ls_db current row h
  unfold lsNodes
  rw [List.mem_toFinset]
  apply List.mem_append_left
  apply List.mem_append_right
  rw [List.mem_flatten]
  exact ⟨row.map Prod.fst, List.mem_map_of_mem _ hpair, List.mem_map_of_mem _ hnc⟩

theorem map_snd_sum_pySet_lt {κ : Type} [DecidableEq κ] (l : List (κ × Nat))
    (k : κ) (v old : Nat) (h : pyGet l k = some old) (hlt : v < old) :
    ((pySet l k v).map Prod.snd).sum < (l.map Prod.snd).sum := by
  induction l with
  | nil => exact Option.noConfusion h
  | cons hd tl ih =>
    obtain ⟨k0, v0⟩ := hd
    by_cases h0 : k0 = k
    · subst h0
      simp only [pyGet, if_pos rfl] at h
      obtain rfl : v0 = old := Option.some.inj h
      have hps : pySet ((k0, v0) :: tl) k0 v = (k0, v) :: tl := by
        simp [pySet]
      rw [hps]
      simp only [List.map_cons, List.sum_cons]
      omega
    · simp only [pyGet, if_neg h0] at h
      simp only [pySet, if_neg h0, List.map_cons, List.sum_cons]
      have := ih h
      omega

theorem relaxEdge_distances_not_none (s : LSState α) (current : α) (dist : Nat)
    (st : DijkState α) (nc : α × Nat) (v : α)
    (h : pyGet st.distances v ≠ none) :
    pyGet (relaxEdge s current dist st nc).distances v ≠ none := by
  unfold relaxEdge
  cases himp : (match pyGet st.distances nc.1 with
    | none => true
    | some dn => decide (dist + nc.2 < dn)) with
  | false => simpa [himp]
  | true =>
    simp only [himp, if_true]
    by_cases hv : nc.1 = v
    · subst hv
      simp [pyGet_pySet_self]
    · simpa [pyGet_pySet_ne _ _ _ _ hv] using h

theorem missingCount_relaxEdge_le (s : LSState α) (current : α) (dist : Nat)
    (st : DijkState α) (nc : α × Nat) :
    missingCount s (relaxEdge s current dist st nc) ≤ missingCount s st := by
  apply Finset.card_le_card
  intro v hv
  simp only [Finset.mem_filter] at hv ⊢
  refine ⟨hv.1, ?_⟩
  by_contra hne
  exact relaxEdge_distances_not_none s current dist st nc v hne hv.2

theorem relaxEdge_distances_eq_of_improves (s : LSState α) (current : α)
    (dist : Nat) (st : DijkState α) (nc : α × Nat)
    (himp : (match pyGet st.distances nc.1 with
      | none => true
      | some dn => decide (dist + nc.2 < dn)) = true) :
    (relaxEdge s current dist st nc).distances =
      pySet st.distances nc.1 (dist + nc.2) := by
  simp only [relaxEdge, himp]
  rfl

theorem relaxEdge_rel (s : LSState α) (current : α) (dist : Nat)
    (st : DijkState α) (nc : α × Nat) (hmem : nc.1 ∈ lsNodes s) :
    DijkRel s st (relaxEdge s current dist st nc) := by
  cases himp : (match pyGet st.distances nc.1 with
    | none => true
    | some dn => decide (dist + nc.2 < dn)) with
  | false =>
    left
    simp only [relaxEdge, himp]
    rfl
  | true =>
    have hdist := relaxEdge_distances_eq_of_improves s current dist st nc himp
    right
    cases hd : pyGet st.distances nc.1 with
    | none =>
      left
      unfold missingCount
      simp only [hdist]
      apply Finset.card_lt_card
      constructor
      · intro v hv
        simp only [Finset.mem_filter] at hv ⊢
        refine ⟨hv.1, ?_⟩
        by_cases hveq : nc.1 = v
        · exfalso
          rw [← hveq, pyGet_pySet_self] at hv
          exact Option.noConfusion hv.2
        · rw [pyGet_pySet_ne _ _ _ _ hveq] at hv
          exact hv.2
      · intro hsub
        have hin : nc.1 ∈ (lsNodes s).filter
            (fun v => pyGet st.distances v = none) := by
          simp only [Finset.mem_filter]
          exact ⟨hmem, hd⟩
        have hout := hsub hin
        simp only [Finset.mem_filter, pyGet_pySet_self] at hout
        exact Option.noConfusion hout.2
    | some dn =>
      right
      have hlt : dist + nc.2 < dn := by
        rw [hd] at himp
        exact of_decide_eq_true himp
      constructor
      · unfold missingCount
        simp only [hdist]
        apply congrArg
        apply Finset.filter_congr
        intro v hv
        by_cases hveq : nc.1 = v
        · rw [← hveq, pyGet_pySet_self, hd]
          simp
        · rw [pyGet_pySet_ne _ _ _ _ hveq]
      · unfold distSum
        simp only [hdist]
        exact map_snd_sum_pySet_lt st.distances nc.1 (dist + nc.2) dn hd hlt

theorem DijkRel_trans (s : LSState α) (a b c : DijkState α)
    (h1 : DijkRel s a b) (h2 : DijkRel s b c) : DijkRel s a c := by
  rcases h1 with rfl | h1 | h1
  · exact h2
  · rcases h2 with rfl | h2 | h2
    · right; left; exact h1
    · right; left; exact Nat.lt_trans h2 h1
    · right; left; rw [h2.1]; exact h1
  · rcases h2 with rfl | h2 | h2
    · right; right; exact h1
    · right; left; rw [← h1.1]; exact h2
    · right; right; exact ⟨h2.1.trans h1.1, Nat.lt_trans h2.2 h1.2⟩

theorem foldl_relaxEdge_rel (s : LSState α) (current : α) (dist : Nat)
    (row : List (α × Nat)) (st : DijkState α)
    (hrow : ∀ nc ∈ row, nc.1 ∈ lsNodes s) :
    DijkRel s st (row.foldl (relaxEdge s current dist) st) := by
  induction row generalizing st with
  | nil => left; rfl
  | cons nc tl ih =>
    rw [List.foldl_cons]
    apply DijkRel_trans s st (relaxEdge s current dist st nc)
    · exact relaxEdge_rel s current dist st nc (hrow nc (List.mem_cons_self _ _))
    · exact ih _ (fun x hx => hrow x (List.mem_cons_of_mem _ hx))

end LS

namespace LS

variable {α : Type} [LinearOrder α]

/-- The `while pq:` loop of `calculate_forwarding_table`: pop the least
`(distance, node)` pair, skip it when stale
(`current in distances and dist > distances[current]`), otherwise relax every
edge recorded for `current` in `ls_db`, and return `first_hops` when the
queue empties. -/
def dijkstraLoop (s : LSState α) (st : DijkState α) : List (α × Nat) :=
  match hpop : popMin st.pq with
  | none => st.first_hops
  | some ((dist, current), pq2) =>
    let st1 : DijkState α := { st with pq := pq2 }
    let stale : Bool :=
      match pyGet st.distances current with
      | some dcur => decide (dist > dcur)
      | none => false
    if stale then dijkstraLoop s st1
    else
      match hrow : pyGet s.ls_db current with
      | none => dijkstraLoop s st1
      | some row => dijkstraLoop s (row.foldl (relaxEdge s current dist) st1)
termination_by (missingCount s st, distSum st, st.pq.length)
decreasing_by
  · apply Prod.Lex.right
    apply Prod.Lex.right
    have := popMin_rest_length st.pq _ _ hpop
    show pq2.length < st.pq.length
    omega
  · have hlen := popMin_rest_length st.pq _ _ hpop
    have hrel := foldl_relaxEdge_rel s current dist row
      { st with pq := pq2 } (row_keys_mem_lsNodes s current row hrow)
    rcases hrel with heq | hlt | ⟨hmeq, hslt⟩
    · have h1 : missingCount s (List.foldl (relaxEdge s current dist)
          { st with pq := pq2 } row) = missingCount s st := by
        rw [heq]
        rfl
      have h2 : distSum (List.foldl (relaxEdge s current dist)
          { st with pq := pq2 } row) = distSum st := by
        rw [heq]
        rfl
      have h3 : (List.foldl (relaxEdge s current dist)
          { st with pq := pq2 } row).pq.length < st.pq.length := by
        rw [heq]
        show pq2.length < st.pq.length
        omega
      rw [h1, h2]
      apply Prod.Lex.right
      apply Prod.Lex.right
      exact h3
    · apply Prod.Lex.left
      exact hlt
    · have h1 : missingCount s (List.foldl (relaxEdge s current dist)
          { st with pq := pq2 } row) = missingCount s st :=
        hmeq.trans (rfl)
      rw [h1]
      apply Prod.Lex.right
      apply Prod.Lex.left
      exact hslt

end LS

namespace LS

variable {α : Type} [LinearOrder α]

/-- `calculate_forwarding_table`: full Dijkstra from self over `ls_db`,
replacing the forwarding table wholesale with the computed first hops. -/
def dijkstraInit (s : LSState α) : DijkState α :=
  { distances := [(s.addr, 0)]
    predecessors := []
    first_hops := []
    pq := [(0, s.addr)] }

def calculate_forwarding_table (s : LSState α) : LSState α :=
  { s with forwarding_table := dijkstraLoop s (dijkstraInit s) }

/-- `flood_packet`: forward the received packet unchanged to every neighbor
except the arrival port. -/
def flood_packet (s : LSState α) (packet : LSPacket α) (exclude_port : Nat) :
    List (Nat × LSPacket α) :=
  (s.neighbors.filter (fun pe => pe.1 ≠ exclude_port)).map
    (fun pe => (pe.1, packet))

/-- `broadcast_link_state`: send this node's own link-state record to every
neighbor, then set `last_sent` from the wall clock (`time.time() * 1000`),
modelled by the explicit `wall` argument. -/
def broadcast_link_state (wall : Int) (s : LSState α) :
    LSState α × List (Nat × LSPacket α) :=
  let content : Option (α × Int × List (α × Nat)) :=
    some (s.addr, (pyGet s.seq_nums s.addr).getD 0, (pyGet s.ls_db s.addr).getD [])
  ({ s with last_sent := wall },
   s.neighbors.map (fun pe => (pe.1, LSPacket.routing s.addr pe.2.1 content)))

/-- `LSrouter.handle_packet`. -/
def handle_packet (s : LSState α) (port : Nat) (packet : LSPacket α) :
    LSState α × List (Nat × LSPacket α) :=
  match packet with
  | LSPacket.traceroute _ dst_addr =>
    match pyGet s.forwarding_table dst_addr with
    | some out_port => (s, [(out_port, packet)])
    | none =>
      match s.neighbors.find? (fun pe => pe.2.1 = dst_addr) with
      | some pe => (s, [(pe.1, packet)])
      | none => (s, [])
  | LSPacket.routing _ _ content =>
    match content with
    | none => (s, [])        -- decoding raises, swallowed by the except
    | some (router_addr, seq_num, link_state) =>
      if (router_addr, seq_num) ∈ s.packet_history then (s, [])
      else
        let s1 : LSState α := { s with
          packet_history := s.packet_history ++ [(router_addr, seq_num)] }
        let newer : Bool :=
          match pyGet s1.seq_nums router_addr with
          | none => true
          | some q => decide (seq_num > q)
        if newer = true then
          let s2 : LSState α := { s1 with
            seq_nums := pySet s1.seq_nums router_addr seq_num
            ls_db := pySet s1.ls_db router_addr link_state }
          let s3 := calculate_forwarding_table s2
          (s3, flood_packet s3 packet port)
        else (s1, [])

/-- `LSrouter.handle_new_link`. -/
def handle_new_link (wall : Int) (s : LSState α) (port : Nat) (endpoint : α)
    (cost : Nat) : LSState α × List (Nat × LSPacket α) :=
  let s1 := { s with
    neighbors := pySet s.neighbors port (endpoint, cost)
    ls_db := pySet s.ls_db s.addr
      (pySet ((pyGet s.ls_db s.addr).getD []) endpoint cost)
    seq_nums := pySet s.seq_nums s.addr ((pyGet s.seq_nums s.addr).getD 0 + 1) }
  let s2 := calculate_forwarding_table s1
  broadcast_link_state wall s2

/-- `LSrouter.handle_remove_link`. -/
def handle_remove_link (wall : Int) (s : LSState α) (port : Nat) :
    LSState α × List (Nat × LSPacket α) :=
  match pyGet s.neighbors port with
  | none => (s, [])
  | some nb =>
    let s1 := { s with
      neighbors := pyDel s.neighbors port
      ls_db := pySet s.ls_db s.addr
        (pyDel ((pyGet s.ls_db s.addr).getD []) nb.1)
      seq_nums := pySet s.seq_nums s.addr ((pyGet s.seq_nums s.addr).getD 0 + 1) }
    let s2 := calculate_forwarding_table s1
    broadcast_link_state wall s2

/-- `LSrouter.handle_time`. -/
def handle_time (wall : Int) (s : LSState α) (time_ms : Int) :
    LSState α × List (Nat × LSPacket α) :=
  if s.heartbeat_time ≤ time_ms - s.last_sent then
    let bs := broadcast_link_state wall s
    ({ bs.1 with last_sent := time_ms }, bs.2)
  else (s, [])

end LS

/-! ## Specification-side definitions for the LS claims -/

/-- Claim C9's synchronization property: `ls_db[self]` exists and is exactly
the mapping sending each neighbor address of the link table to that link's
cost. -/
def LSsync {α : Type} [DecidableEq α] (s : LSState α) : Prop :=
  (pyGet s.ls_db s.addr).isSome = true ∧
  ∀ a c, pyGet ((pyGet s.ls_db s.addr).getD []) a = some c ↔
    ∃ p, pyGet s.neighbors p = some (a, c)

/-- No two ports of the link table lead to the same neighbor address (the
premise under which "the mapping from each neighbor address to that link's
cost" is well defined). -/
def LSAddrUnique {α : Type} [DecidableEq α] (s : LSState α) : Prop :=
  ∀ p1 p2 a c1 c2, pyGet s.neighbors p1 = some (a, c1) →
    pyGet s.neighbors p2 = some (a, c2) → p1 = p2

/-- A concrete LS router state: node 0 with one link (port 5 to node 1,
cost 1), its own record in `ls_db`, sequence number 1. -/
def lsStateC9 : LSState Nat :=
  { addr := 0
    heartbeat_time := 100
    last_sent := 0
    ls_db := [(0, [(1, 1)])]
    seq_nums := [(0, 1)]
    neighbors := [(5, (1, 1))]
    forwarding_table := [(1, 5)]
    packet_history := [] }

/-! ## Claim C5: malformed routing packets -/

/-- A routing packet whose content makes the decode raise before anything is
written leaves either engine's state untouched and sends nothing: the
catch-all except fires with nothing yet mutated. -/
theorem routing_unparseable_noop {α : Type} [LinearOrder α] :
    (∀ (s : DVState α) (port : Nat) (src dst : α),
      DV.handle_packet s port (DVPacket.routing src dst none) = (s, [])) ∧
    (∀ (s : LSState α) (port : Nat) (src dst : α),
      LS.handle_packet s port (LSPacket.routing src dst none) = (s, [])) := by
  constructor
  · intro s port src dst
    unfold DV.handle_packet
    cases h : pyGet s.neighbors port <;> simp [h]
  · intro s port src dst
    rfl

/-- `DVrouter.handle_packet` (lines 49–76) on a routing packet whose content
`json.loads` decodes to something other than a dict (a list, number, string
or boolean — `.items()` and `.keys()` raise on all of them).  When the
sending neighbor already has a stored vector, the comparison loop (line 62)
raises before anything is mutated and the except leaves the state untouched;
when it has none, line 68 first stores the undecodable object into
`neighbor_dvs` and only then does `update_distance_vector` raise while
collecting destinations (line 158), so the except at line 74 fires with
`neighbor_dvs` already corrupted.  `none` marks that run: its result state
holds an object the typed model cannot represent. -/
def DV.handle_packet_garbage {α : Type} [DecidableEq α] (s : DVState α)
    (port : Nat) : Option (DVState α × List (Nat × DVPacket α)) :=
  match pyGet s.neighbors port with
  | none => some (s, [])
  | some nb =>
    match pyGet s.neighbor_dvs nb.1 with
    | some _ => some (s, [])
    | none => none

/-- `LSrouter.handle_packet` (lines 46–64) on a routing packet whose
`"router"` and `"seq"` fields decode to a well-typed origin and integer but
whose `"links"` object is not a cost map.  The duplicate check and the
`packet_history.add` (line 56) touch only `(router, seq)`, so they run
normally: the processed set grows even though the record is garbage.  A
known origin with a non-newer sequence number then returns with exactly that
mutation and no sends (the arrival port plays no role on these runs).  If
instead the origin is unknown or the sequence is newer, line 59 stores the
sequence and line 60 stores the undecodable links object into
`ls_db[router]`; `none` marks that run, whose result state holds an object
the typed model cannot represent (line 61's Dijkstra then raises as soon as
it pops the corrupted row, leaving the forwarding table reset to the empty
dict of line 97). -/
def LS.handle_packet_badlinks {α : Type} [LinearOrder α] (s : LSState α)
    (router_addr : α) (seq_num : Int) :
    Option (LSState α × List (Nat × LSPacket α)) :=
  if (router_addr, seq_num) ∈ s.packet_history then some (s, [])
  else
    let s1 : LSState α := { s with
      packet_history := s.packet_history ++ [(router_addr, seq_num)] }
    let newer : Bool :=
      match pyGet s1.seq_nums router_addr with
      | none => true
      | some q => decide (seq_num > q)
    if newer = true then none
    else some (s1, [])

/-- A concrete LS router state that has already accepted sequence number 5
from origin 7. -/
def lsStateC5 : LSState Nat :=
  { addr := 0
    heartbeat_time := 100
    last_sent := 0
    ls_db := [(0, [(1, 1)]), (7, [(0, 1)])]
    seq_nums := [(0, 1), (7, 5)]
    neighbors := [(5, (1, 1))]
    forwarding_table := [(1, 5)]
    packet_history := [(7, 5)] }

/-- C5 is false of the code: a parseable-but-malformed routing payload is
not a silent no-op.  LS: a record with well-typed origin 7 and sequence 3
but undecodable links, delivered to `lsStateC5` (which already accepted
sequence 5 from origin 7), grows `packet_history` — the state changes where
the claim demands it stay exactly as it was.  DV: a non-dict payload from
the neighbor on port 1 of a router holding no vector for it reaches the
line-68 store of the undecodable object into `neighbor_dvs` (the run marked
`none`). -/
theorem claim_C5_not_noop :
    LS.handle_packet_badlinks lsStateC5 7 3
      = some ({ lsStateC5 with packet_history := [(7, 5), (7, 3)] }, []) ∧
    { lsStateC5 with packet_history := [(7, 5), (7, 3)] } ≠ lsStateC5 ∧
    DV.handle_packet_garbage (DV.handle_new_link (DV.init 0 100) 1 10 4).1 1
      = none := by
  refine ⟨by decide, by decide, by decide⟩

/-! ## Claim C8: determinism -/

/-- C8 exhibits the wall-clock dependence of the LS handlers:
`broadcast_link_state` stores `time.time() * 1000` into `last_sent`, so the
same `handle_new_link` call, from the same state with the same arguments,
run at two different wall-clock instants, produces two different states. -/
theorem LS_claim_C8_wallclock_dependence :
    (LS.handle_new_link 0 (LS.init (0 : Nat) 100) 5 1 1).1.last_sent = 0 ∧
    (LS.handle_new_link 1 (LS.init (0 : Nat) 100) 5 1 1).1.last_sent = 1 ∧
    (LS.handle_new_link 0 (LS.init (0 : Nat) 100) 5 1 1).1 ≠
      (LS.handle_new_link 1 (LS.init (0 : Nat) 100) 5 1 1).1 := by
  refine ⟨rfl, rfl, ?_⟩
  intro h
  have h2 := congrArg LSState.last_sent h
  have h0 : (LS.handle_new_link 0 (LS.init (0 : Nat) 100) 5 1 1).1.last_sent =
      (0 : Int) := rfl
  have h1 : (LS.handle_new_link 1 (LS.init (0 : Nat) 100) 5 1 1).1.last_sent =
      (1 : Int) := rfl
  rw [h0, h1] at h2
  exact absurd h2 (by norm_num)

/-! ## Claim C10: removing an unknown port is a no-op -/

/-- C10: for both engines, `handle_remove_link` on a port absent from the
link table returns immediately: no state component changes and nothing is
sent. -/
theorem claim_C10_remove_unknown_port {α : Type} [LinearOrder α]
    (sd : DVState α) (sl : LSState α) (portd portl : Nat) (wall : Int)
    (hd : pyGet sd.neighbors portd = none)
    (hl : pyGet sl.neighbors portl = none) :
    DV.handle_remove_link sd portd = (sd, []) ∧
    LS.handle_remove_link wall sl portl = (sl, []) := by
  constructor
  · unfold DV.handle_remove_link
    rw [hd]
  · unfold LS.handle_remove_link
    rw [hl]

/-- Witness for C10: port 99 is unknown to both concrete routers. -/
theorem claim_C10_witness :
    (pyGet dvStateC6.neighbors 99 = none ∧
     pyGet lsStateC9.neighbors 99 = none) ∧
    (DV.handle_remove_link dvStateC6 99 = (dvStateC6, []) ∧
     LS.handle_remove_link 0 lsStateC9 99 = (lsStateC9, [])) :=
  ⟨⟨by decide, by decide⟩,
    claim_C10_remove_unknown_port dvStateC6 lsStateC9 99 99 0
      (by decide) (by decide)⟩

/-! ## Claim C9: `ls_db[self]` vs the link table -/

section C9

variable {α : Type} [LinearOrder α]

theorem LSsync_congr (s t : LSState α)
    (hdb : pyGet t.ls_db t.addr = pyGet s.ls_db s.addr)
    (hnb : ∀ p, pyGet t.neighbors p = pyGet s.neighbors p)
    (h : LSsync s) : LSsync t := by
  obtain ⟨h1, h2⟩ := h
  constructor
  · rw [hdb]
    exact h1
  · intro a c
    rw [hdb, h2 a c]
    exact exists_congr (fun p => by rw [hnb p])

theorem LSAddrUnique_congr (s t : LSState α)
    (hnb : ∀ p, pyGet t.neighbors p = pyGet s.neighbors p)
    (h : LSAddrUnique s) : LSAddrUnique t := by
  intro p1 p2 a c1 c2 h1 h2
  rw [hnb p1] at h1
  rw [hnb p2] at h2
  exact h p1 p2 a c1 c2 h1 h2

/-- C9 is false of the code in two ways: a routing packet forged with origin
equal to the node's own address and a newer sequence number is accepted and
overwrites `ls_db[self]`; and `handle_new_link` on an already-occupied port
overwrites that neighbor-table entry while the displaced neighbor's link
stays in `ls_db[self]` (lines 68–69 never evict it).  Both runs leave
`ls_db[self]` out of sync with the link table. -/
theorem LS_claim_C9_counterexample :
    LSsync lsStateC9 ∧
    ¬ LSsync (LS.handle_packet lsStateC9 5
        (LSPacket.routing 9 0 (some (0, 99, [(42, 5)])))).1 ∧
    ¬ LSsync (LS.handle_new_link 0 lsStateC9 5 2 7).1 := by
  refine ⟨?_, ?_, ?_⟩
  · refine ⟨by decide, ?_⟩
    intro a c
    constructor
    · intro h
      by_cases ha : (1 : Nat) = a
      · subst ha
        have hc : c = 1 := by
          have : some 1 = some c := by
            simpa [pyGet, lsStateC9] using h
          exact (Option.some.inj this).symm
        subst hc
        exact ⟨5, by decide⟩
      · exfalso
        simp [pyGet, lsStateC9, ha] at h
    · rintro ⟨p, hp⟩
      by_cases hp5 : (5 : Nat) = p
      · subst hp5
        have : ((1 : Nat), (1 : Nat)) = (a, c) := by
          have := hp
          simpa [pyGet, lsStateC9] using this
        obtain ⟨rfl, rfl⟩ := Prod.mk.inj this
        decide
      · exfalso
        simp [pyGet, lsStateC9, hp5] at hp
  · intro hsync
    have hdb : pyGet (LS.handle_packet lsStateC9 5
        (LSPacket.routing 9 0 (some (0, 99, [(42, 5)])))).1.ls_db 0 =
        some [(42, 5)] := by decide
    have haddr : (LS.handle_packet lsStateC9 5
        (LSPacket.routing 9 0 (some (0, 99, [(42, 5)])))).1.addr = 0 := by decide
    have hnb : (LS.handle_packet lsStateC9 5
        (LSPacket.routing 9 0 (some (0, 99, [(42, 5)])))).1.neighbors =
        [(5, (1, 1))] := by decide
    obtain ⟨p, hp⟩ := (hsync.2 42 5).mp (by rw [haddr, hdb]; decide)
    rw [hnb] at hp
    by_cases hp5 : (5 : Nat) = p
    · subst hp5
      exact absurd hp (by decide)
    · have hnone : pyGet [(5, ((1 : Nat), (1 : Nat)))] p = none := by
        unfold pyGet
        rw [if_neg hp5]
        rfl
      rw [hnone] at hp
      exact Option.noConfusion hp
  · intro hsync
    have hdb : pyGet (LS.handle_new_link 0 lsStateC9 5 2 7).1.ls_db 0 =
        some [(1, 1), (2, 7)] := by decide
    have haddr : (LS.handle_new_link 0 lsStateC9 5 2 7).1.addr = 0 := by decide
    have hnb : (LS.handle_new_link 0 lsStateC9 5 2 7).1.neighbors =
        [(5, (2, 7))] := by decide
    obtain ⟨p, hp⟩ := (hsync.2 1 1).mp (by rw [haddr, hdb]; decide)
    rw [hnb] at hp
    by_cases hp5 : (5 : Nat) = p
    · subst hp5
      exact absurd hp (by decide)
    · have hnone : pyGet [(5, ((2 : Nat), (7 : Nat)))] p = none := by
        unfold pyGet
        rw [if_neg hp5]
        rfl
      rw [hnone] at hp
      exact Option.noConfusion hp

end C9

section C9Amended

variable {α : Type} [LinearOrder α]

theorem LS_new_link_sync (s : LSState α) (wall : Int) (port : Nat)
    (endpoint : α) (cost : Nat) (hsync : LSsync s) (huniq : LSAddrUnique s)
    (hfresh : ∀ p a c, pyGet s.neighbors p = some (a, c) →
      (a = endpoint ↔ p = port)) :
    LSsync (LS.handle_new_link wall s port endpoint cost).1 ∧
    LSAddrUnique (LS.handle_new_link wall s port endpoint cost).1 := by
  have hnb : (LS.handle_new_link wall s port endpoint cost).1.neighbors =
      pySet s.neighbors port (endpoint, cost) := rfl
  have hdb : pyGet (LS.handle_new_link wall s port endpoint cost).1.ls_db
      (LS.handle_new_link wall s port endpoint cost).1.addr =
      some (pySet ((pyGet s.ls_db s.addr).getD []) endpoint cost) := by
    show pyGet (pySet s.ls_db s.addr
      (pySet ((pyGet s.ls_db s.addr).getD []) endpoint cost)) s.addr = _
    rw [pyGet_pySet_self]
  constructor
  · constructor
    · rw [hdb]
      rfl
    · intro a c
      rw [hdb, hnb]
      simp only [Option.getD_some]
      by_cases ha : endpoint = a
      · subst ha
        rw [pyGet_pySet_self]
        constructor
        · intro hc
          obtain rfl : cost = c := Option.some.inj hc
          exact ⟨port, pyGet_pySet_self _ _ _⟩
        · rintro ⟨p, hp⟩
          by_cases hpp : p = port
          · subst hpp
            rw [pyGet_pySet_self] at hp
            obtain ⟨_, h2⟩ := Prod.mk.inj (Option.some.inj hp)
            rw [h2]
          · rw [pyGet_pySet_ne _ _ _ _ (fun h => hpp h.symm)] at hp
            exact absurd ((hfresh p endpoint c hp).mp rfl) hpp
      · rw [pyGet_pySet_ne _ _ _ _ ha]
        rw [(hsync.2 a c)]
        constructor
        · rintro ⟨p, hp⟩
          have hpne : p ≠ port := by
            intro hpp
            exact ha ((hfresh p a c hp).mpr hpp).symm
          exact ⟨p, by
            rw [pyGet_pySet_ne _ _ _ _ (fun h => hpne h.symm)]
            exact hp⟩
        · rintro ⟨p, hp⟩
          by_cases hpp : p = port
          · subst hpp
            rw [pyGet_pySet_self] at hp
            obtain ⟨h1, _⟩ := Prod.mk.inj (Option.some.inj hp)
            exact absurd h1 ha
          · rw [pyGet_pySet_ne _ _ _ _ (fun h => hpp h.symm)] at hp
            exact ⟨p, hp⟩
  · intro p1 p2 a c1 c2 h1 h2
    rw [hnb] at h1 h2
    by_cases hp1 : p1 = port <;> by_cases hp2 : p2 = port
    · rw [hp1, hp2]
    · exfalso
      subst hp1
      rw [pyGet_pySet_self] at h1
      obtain ⟨ha, _⟩ := Prod.mk.inj (Option.some.inj h1)
      rw [pyGet_pySet_ne _ _ _ _ (fun h => hp2 h.symm)] at h2
      exact hp2 ((hfresh p2 a c2 h2).mp ha.symm)
    · exfalso
      subst hp2
      rw [pyGet_pySet_self] at h2
      obtain ⟨ha, _⟩ := Prod.mk.inj (Option.some.inj h2)
      rw [pyGet_pySet_ne _ _ _ _ (fun h => hp1 h.symm)] at h1
      exact hp1 ((hfresh p1 a c1 h1).mp ha.symm)
    · rw [pyGet_pySet_ne _ _ _ _ (fun h => hp1 h.symm)] at h1
      rw [pyGet_pySet_ne _ _ _ _ (fun h => hp2 h.symm)] at h2
      exact huniq p1 p2 a c1 c2 h1 h2

end C9Amended

section C9AmendedB

variable {α : Type} [LinearOrder α]

theorem LS_remove_link_sync (s : LSState α) (wall : Int) (port : Nat)
    (hsync : LSsync s) (huniq : LSAddrUnique s)
    (hports : (s.neighbors.map Prod.fst).Nodup)
    (hrow : (((pyGet s.ls_db s.addr).getD []).map Prod.fst).Nodup) :
    LSsync (LS.handle_remove_link wall s port).1 ∧
    LSAddrUnique (LS.handle_remove_link wall s port).1 := by
  cases hnb : pyGet s.neighbors port with
  | none =>
    have hid : LS.handle_remove_link wall s port = (s, []) := by
      unfold LS.handle_remove_link
      rw [hnb]
    rw [hid]
    exact ⟨hsync, huniq⟩
  | some nb =>
    have hres : (LS.handle_remove_link wall s port).1.neighbors =
        pyDel s.neighbors port ∧
        pyGet (LS.handle_remove_link wall s port).1.ls_db
          (LS.handle_remove_link wall s port).1.addr =
          some (pyDel ((pyGet s.ls_db s.addr).getD []) nb.1) := by
      unfold LS.handle_remove_link
      rw [hnb]
      exact ⟨rfl, by
        show pyGet (pySet s.ls_db s.addr _) s.addr = _
        rw [pyGet_pySet_self]⟩
    obtain ⟨hnbs, hdb⟩ := hres
    constructor
    · constructor
      · rw [hdb]
        rfl
      · intro a c
        rw [hdb, hnbs]
        simp only [Option.getD_some]
        by_cases ha : nb.1 = a
        · subst ha
          rw [pyGet_pyDel_self_of_nodup _ _ hrow]
          constructor
          · intro h
            exact Option.noConfusion h
          · rintro ⟨p, hp⟩
            exfalso
            by_cases hpp : p = port
            · subst hpp
              rw [pyGet_pyDel_self_of_nodup _ _ hports] at hp
              exact Option.noConfusion hp
            · rw [pyGet_pyDel_ne _ _ _ (fun h => hpp h.symm)] at hp
              exact hpp (huniq p port nb.1 c nb.2 hp (by
                rw [hnb]))
        · rw [pyGet_pyDel_ne _ _ _ ha, hsync.2 a c]
          constructor
          · rintro ⟨p, hp⟩
            have hpne : p ≠ port := by
              intro hpp
              subst hpp
              rw [hnb] at hp
              obtain ⟨h1, _⟩ := Prod.mk.inj (Option.some.inj hp)
              exact ha h1
            exact ⟨p, by
              rw [pyGet_pyDel_ne _ _ _ (fun h => hpne h.symm)]
              exact hp⟩
          · rintro ⟨p, hp⟩
            by_cases hpp : p = port
            · subst hpp
              rw [pyGet_pyDel_self_of_nodup _ _ hports] at hp
              exact Option.noConfusion hp
            · rw [pyGet_pyDel_ne _ _ _ (fun h => hpp h.symm)] at hp
              exact ⟨p, hp⟩
    · intro p1 p2 a c1 c2 h1 h2
      rw [hnbs] at h1 h2
      by_cases hp1 : p1 = port
      · exfalso
        subst hp1
        rw [pyGet_pyDel_self_of_nodup _ _ hports] at h1
        exact Option.noConfusion h1
      · by_cases hp2 : p2 = port
        · exfalso
          subst hp2
          rw [pyGet_pyDel_self_of_nodup _ _ hports] at h2
          exact Option.noConfusion h2
        · rw [pyGet_pyDel_ne _ _ _ (fun h => hp1 h.symm)] at h1
          rw [pyGet_pyDel_ne _ _ _ (fun h => hp2 h.symm)] at h2
          exact huniq p1 p2 a c1 c2 h1 h2

theorem LS_time_sync (s : LSState α) (wall : Int) (time_ms : Int)
    (hsync : LSsync s) (huniq : LSAddrUnique s) :
    LSsync (LS.handle_time wall s time_ms).1 ∧
    LSAddrUnique (LS.handle_time wall s time_ms).1 := by
  unfold LS.handle_time
  by_cases hc : s.heartbeat_time ≤ time_ms - s.last_sent
  · rw [if_pos hc]
    exact ⟨hsync, huniq⟩
  · rw [if_neg hc]
    exact ⟨hsync, huniq⟩

theorem LS_packet_sync (s : LSState α) (port : Nat) (packet : LSPacket α)
    (hsync : LSsync s) (huniq : LSAddrUnique s)
    (hor : ∀ src dst origin seq links,
      packet = LSPacket.routing src dst (some (origin, seq, links)) →
      origin ≠ s.addr) :
    LSsync (LS.handle_packet s port packet).1 ∧
    LSAddrUnique (LS.handle_packet s port packet).1 := by
  cases packet with
  | traceroute src dst =>
    have hid : (LS.handle_packet s port (LSPacket.traceroute src dst)).1 = s := by
      simp only [LS.handle_packet]
      cases h1 : pyGet s.forwarding_table dst with
      | some op => rfl
      | none =>
        cases h2 : s.neighbors.find? (fun pe => pe.2.1 = dst) with
        | some pe => rfl
        | none => rfl
    rw [hid]
    exact ⟨hsync, huniq⟩
  | routing src dst content =>
    cases content with
    | none => exact ⟨hsync, huniq⟩
    | some rec0 =>
      obtain ⟨origin, seq, links⟩ := rec0
      have horigin : origin ≠ s.addr := hor src dst origin seq links rfl
      simp only [LS.handle_packet]
      by_cases hmem : (origin, seq) ∈ s.packet_history
      · rw [if_pos hmem]
        exact ⟨hsync, huniq⟩
      · rw [if_neg hmem]
        set s1 : LSState α := { s with
          packet_history := s.packet_history ++ [(origin, seq)] } with hs1
        cases hnewer : (match pyGet s1.seq_nums origin with
          | none => true
          | some q => decide (seq > q)) with
        | false =>
          simp only [Bool.false_eq_true, if_false]
          exact ⟨hsync, huniq⟩
        | true =>
          simp only [if_true]
          constructor
          · refine LSsync_congr s _ ?_ (fun p => rfl) hsync
            show pyGet (pySet s.ls_db origin links) s.addr = _
            rw [pyGet_pySet_ne _ _ _ _ horigin]
          · exact LSAddrUnique_congr s _ (fun p => rfl) huniq

/-- C9 (amended): the synchronization of `ls_db[self]` with the link table is
preserved by every handler except two: a routing packet forged with the
node's own address as origin breaks it, and so does `handle_new_link` unless
its link is fresh on both sides — for every existing neighbor entry, that
entry's address must equal the new endpoint exactly when its port equals the
new port.  Both directions of that condition are necessary: an endpoint
already on a different port would make the address map ambiguous, and
re-linking an occupied port to a different endpoint really breaks the
synchronization, because the displaced neighbor's link stays in `ls_db[self]`
(see the counterexample).  `handle_remove_link` additionally needs the
tables' keys duplicate free for deletion to mean removal. -/
theorem LS_claim_C9_amended {α : Type} [LinearOrder α] (s : LSState α)
    (hsync : LSsync s) (huniq : LSAddrUnique s) :
    (∀ (wall : Int) (port : Nat) (endpoint : α) (cost : Nat),
      (∀ p a c, pyGet s.neighbors p = some (a, c) → (a = endpoint ↔ p = port)) →
      LSsync (LS.handle_new_link wall s port endpoint cost).1 ∧
      LSAddrUnique (LS.handle_new_link wall s port endpoint cost).1) ∧
    (∀ (wall : Int) (port : Nat),
      (s.neighbors.map Prod.fst).Nodup →
      (((pyGet s.ls_db s.addr).getD []).map Prod.fst).Nodup →
      LSsync (LS.handle_remove_link wall s port).1 ∧
      LSAddrUnique (LS.handle_remove_link wall s port).1) ∧
    (∀ (wall time_ms : Int),
      LSsync (LS.handle_time wall s time_ms).1 ∧
      LSAddrUnique (LS.handle_time wall s time_ms).1) ∧
    (∀ (port : Nat) (packet : LSPacket α),
      (∀ src dst origin seq links,
        packet = LSPacket.routing src dst (some (origin, seq, links)) →
        origin ≠ s.addr) →
      LSsync (LS.handle_packet s port packet).1 ∧
      LSAddrUnique (LS.handle_packet s port packet).1) :=
  ⟨fun wall port endpoint cost hfresh =>
      LS_new_link_sync s wall port endpoint cost hsync huniq hfresh,
   fun wall port hports hrow =>
      LS_remove_link_sync s wall port hsync huniq hports hrow,
   fun wall time_ms => LS_time_sync s wall time_ms hsync huniq,
   fun port packet hor => LS_packet_sync s port packet hsync huniq hor⟩

end C9AmendedB

theorem lsStateC9_sync : LSsync lsStateC9 := by
  refine ⟨by decide, ?_⟩
  intro a c
  constructor
  · intro h
    by_cases ha : (1 : Nat) = a
    · subst ha
      have hc : c = 1 := by
        have h2 : some 1 = some c := by
          simpa [pyGet, lsStateC9] using h
        exact (Option.some.inj h2).symm
      subst hc
      exact ⟨5, by decide⟩
    · exfalso
      simp [pyGet, lsStateC9, ha] at h
  · rintro ⟨p, hp⟩
    by_cases hp5 : (5 : Nat) = p
    · subst hp5
      have h2 : ((1 : Nat), (1 : Nat)) = (a, c) := by
        simpa [pyGet, lsStateC9] using hp
      obtain ⟨rfl, rfl⟩ := Prod.mk.inj h2
      decide
    · exfalso
      simp [pyGet, lsStateC9, hp5] at hp

theorem lsStateC9_unique : LSAddrUnique lsStateC9 := by
  intro p1 p2 a c1 c2 h1 h2
  have e1 : (5 : Nat) = p1 := by
    by_contra hne
    simp [pyGet, lsStateC9, hne] at h1
  have e2 : (5 : Nat) = p2 := by
    by_contra hne
    simp [pyGet, lsStateC9, hne] at h2
  rw [← e1, ← e2]

/-- Witness for the amended C9 at the concrete synced state `lsStateC9`. -/
theorem LS_claim_C9_amended_witness :
    (LSsync lsStateC9 ∧ LSAddrUnique lsStateC9) ∧
    ((∀ (wall : Int) (port : Nat) (endpoint : Nat) (cost : Nat),
      (∀ p a c, pyGet lsStateC9.neighbors p = some (a, c) →
        (a = endpoint ↔ p = port)) →
      LSsync (LS.handle_new_link wall lsStateC9 port endpoint cost).1 ∧
      LSAddrUnique (LS.handle_new_link wall lsStateC9 port endpoint cost).1) ∧
    (∀ (wall : Int) (port : Nat),
      (lsStateC9.neighbors.map Prod.fst).Nodup →
      (((pyGet lsStateC9.ls_db lsStateC9.addr).getD []).map Prod.fst).Nodup →
      LSsync (LS.handle_remove_link wall lsStateC9 port).1 ∧
      LSAddrUnique (LS.handle_remove_link wall lsStateC9 port).1) ∧
    (∀ (wall time_ms : Int),
      LSsync (LS.handle_time wall lsStateC9 time_ms).1 ∧
      LSAddrUnique (LS.handle_time wall lsStateC9 time_ms).1) ∧
    (∀ (port : Nat) (packet : LSPacket Nat),
      (∀ src dst origin seq links,
        packet = LSPacket.routing src dst (some (origin, seq, links)) →
        origin ≠ lsStateC9.addr) →
      LSsync (LS.handle_packet lsStateC9 port packet).1 ∧
      LSAddrUnique (LS.handle_packet lsStateC9 port packet).1)) :=
  ⟨⟨lsStateC9_sync, lsStateC9_unique⟩,
    LS_claim_C9_amended lsStateC9 lsStateC9_sync lsStateC9_unique⟩

/-! ## Claim C4: LS routing-packet processing -/

/-- C4: a decoded `(origin, seq, links)` routing packet is dropped outright
when `(origin, seq)` was already processed; otherwise it is recorded as
processed, and it is accepted — `ls_db[origin]` and `seq_nums[origin]`
updated, the forwarding table recomputed, the packet flooded to every
neighbor port except the arrival port — exactly when the origin is unknown
or the sequence number strictly exceeds the last accepted one; a non-newer
sequence number changes only the processed set and sends nothing. -/
theorem LS_claim_C4 {α : Type} [LinearOrder α] (s : LSState α) (port : Nat)
    (src dst origin : α) (seq : Int) (links : List (α × Nat)) :
    ((origin, seq) ∈ s.packet_history →
      LS.handle_packet s port
        (LSPacket.routing src dst (some (origin, seq, links))) = (s, [])) ∧
    ((origin, seq) ∉ s.packet_history →
      ((match pyGet s.seq_nums origin with
        | none => True
        | some q => q < seq) →
        LS.handle_packet s port
          (LSPacket.routing src dst (some (origin, seq, links))) =
          (LS.calculate_forwarding_table
            { s with packet_history := s.packet_history ++ [(origin, seq)]
                     seq_nums := pySet s.seq_nums origin seq
                     ls_db := pySet s.ls_db origin links },
           LS.flood_packet
             (LS.calculate_forwarding_table
               { s with packet_history := s.packet_history ++ [(origin, seq)]
                        seq_nums := pySet s.seq_nums origin seq
                        ls_db := pySet s.ls_db origin links })
             (LSPacket.routing src dst (some (origin, seq, links))) port)) ∧
      ((match pyGet s.seq_nums origin with
        | none => False
        | some q => seq ≤ q) →
        LS.handle_packet s port
          (LSPacket.routing src dst (some (origin, seq, links))) =
          ({ s with packet_history := s.packet_history ++ [(origin, seq)] },
            []))) ∧
    (∀ t : LSState α,
      LS.flood_packet t
        (LSPacket.routing src dst (some (origin, seq, links))) port =
        (t.neighbors.filter (fun pe => pe.1 ≠ port)).map
          (fun pe => (pe.1,
            LSPacket.routing src dst (some (origin, seq, links))))) := by
  refine ⟨?_, ?_, fun t => rfl⟩
  · intro hmem
    simp only [LS.handle_packet]
    rw [if_pos hmem]
  · intro hmem
    constructor
    · intro hacc
      simp only [LS.handle_packet]
      rw [if_neg hmem]
      cases hsq : pyGet s.seq_nums origin with
      | none => rfl
      | some q =>
        rw [hsq] at hacc
        rw [if_pos (decide_eq_true hacc)]
    · intro hrej
      simp only [LS.handle_packet]
      rw [if_neg hmem]
      cases hsq : pyGet s.seq_nums origin with
      | none =>
        rw [hsq] at hrej
        exact hrej.elim
      | some q =>
        rw [hsq] at hrej
        rw [if_neg (fun hc => absurd (of_decide_eq_true hc)
          (not_lt.mpr hrej))]

/-- Witness for C4 at `lsStateC9`, receiving origin 1's record with sequence
number 3 (origin unknown, so it is accepted). -/
theorem LS_claim_C4_witness :
    ((1, 3) ∉ lsStateC9.packet_history ∧
      (match pyGet lsStateC9.seq_nums 1 with
       | none => True
       | some q => q < 3)) ∧
    (((1, 3) ∈ lsStateC9.packet_history →
      LS.handle_packet lsStateC9 5
        (LSPacket.routing 1 0 (some (1, 3, [(0, 1), (2, 1)]))) =
        (lsStateC9, [])) ∧
    (((1, 3) : Nat × Int) ∉ lsStateC9.packet_history →
      ((match pyGet lsStateC9.seq_nums 1 with
        | none => True
        | some q => q < 3) →
        LS.handle_packet lsStateC9 5
          (LSPacket.routing 1 0 (some (1, 3, [(0, 1), (2, 1)]))) =
          (LS.calculate_forwarding_table
            { lsStateC9 with
                packet_history := lsStateC9.packet_history ++ [(1, 3)]
                seq_nums := pySet lsStateC9.seq_nums 1 3
                ls_db := pySet lsStateC9.ls_db 1 [(0, 1), (2, 1)] },
           LS.flood_packet
             (LS.calculate_forwarding_table
               { lsStateC9 with
                   packet_history := lsStateC9.packet_history ++ [(1, 3)]
                   seq_nums := pySet lsStateC9.seq_nums 1 3
                   ls_db := pySet lsStateC9.ls_db 1 [(0, 1), (2, 1)] })
             (LSPacket.routing 1 0 (some (1, 3, [(0, 1), (2, 1)]))) 5)) ∧
      ((match pyGet lsStateC9.seq_nums 1 with
        | none => False
        | some q => (3 : Int) ≤ q) →
        LS.handle_packet lsStateC9 5
          (LSPacket.routing 1 0 (some (1, 3, [(0, 1), (2, 1)]))) =
          ({ lsStateC9 with
              packet_history := lsStateC9.packet_history ++ [(1, 3)] },
            []))) ∧
    (∀ t : LSState Nat,
      LS.flood_packet t
        (LSPacket.routing 1 0 (some (1, 3, [(0, 1), (2, 1)]))) 5 =
        (t.neighbors.filter (fun pe => pe.1 ≠ 5)).map
          (fun pe => (pe.1,
            LSPacket.routing 1 0 (some (1, 3, [(0, 1), (2, 1)])))))) :=
  ⟨⟨by decide, by trivial⟩, LS_claim_C4 lsStateC9 5 1 0 1 3 [(0, 1), (2, 1)]⟩

/-! ## Claim C1: the graph read from `ls_db`, walks and shortest distances -/

/-- The directed graph implied by `ls_db`: an edge `u → v` of cost `c` for
every recorded adjacency. -/
def lsEdge {α : Type} [DecidableEq α] (s : LSState α) (u v : α) (c : Nat) :
    Prop :=
  ∃ row, pyGet s.ls_db u = some row ∧ pyGet row v = some c

/-- Walks in the graph implied by `ls_db`, carrying their total cost. -/
inductive LSWalk {α : Type} [DecidableEq α] (s : LSState α) :
    α → α → Nat → Prop where
  | nil (u : α) : LSWalk s u u 0
  | cons {u v w : α} {c cw : Nat} :
      lsEdge s u v c → LSWalk s v w cw → LSWalk s u w (c + cw)

/-- `D` is the length of a shortest path from self to `v` in the graph
implied by `ls_db`. -/
def IsShortestDist {α : Type} [DecidableEq α] (s : LSState α) (v : α)
    (D : Nat) : Prop :=
  LSWalk s s.addr v D ∧ ∀ k, LSWalk s s.addr v k → D ≤ k

section C1Infrastructure

theorem pyGet_of_mem_nodup {κ β : Type} [DecidableEq κ] (l : List (κ × β))
    (kv : κ × β) (hm : kv ∈ l) (hnd : (l.map Prod.fst).Nodup) :
    pyGet l kv.1 = some kv.2 := by
  induction l with
  | nil => simp at hm
  | cons hd tl ih =>
    obtain ⟨k0, v0⟩ := hd
    simp only [List.map_cons, List.nodup_cons] at hnd
    rcases List.mem_cons.mp hm with h | h
    · subst h
      simp [pyGet]
    · have hne : k0 ≠ kv.1 := by
        intro he
        exact hnd.1 (he ▸ List.mem_map_of_mem Prod.fst h)
      simp only [pyGet, if_neg hne]
      exact ih h hnd.2

variable {α : Type} [LinearOrder α]

theorem LS_popMin_perm (pq : List (Nat × α)) (m : Nat × α)
    (rest : List (Nat × α)) (h : LS.popMin pq = some (m, rest)) :
    (m :: rest).Perm pq := by
  induction pq generalizing m rest with
  | nil => exact Option.noConfusion h
  | cons x tl ih =>
    unfold LS.popMin at h
    cases htl : LS.popMin tl with
    | none =>
      obtain rfl : tl = [] := (LS.popMin_eq_none_iff tl).mp htl
      rw [htl] at h
      have hred : some (x, ([] : List (Nat × α))) = some (m, rest) := h
      obtain ⟨h1, h2⟩ := Prod.mk.inj (Option.some.inj hred)
      rw [← h1, ← h2]
    | some mr =>
      obtain ⟨m2, r2⟩ := mr
      rw [htl] at h
      have hred : (if LS.pqLEb x m2 = true then some (x, tl)
          else some (m2, x :: r2)) = some (m, rest) := h
      by_cases hc : LS.pqLEb x m2
      · rw [if_pos hc] at hred
        obtain ⟨h1, h2⟩ := Prod.mk.inj (Option.some.inj hred)
        rw [← h1, ← h2]
      · rw [if_neg hc] at hred
        obtain ⟨h1, h2⟩ := Prod.mk.inj (Option.some.inj hred)
        rw [← h1, ← h2]
        have hperm := ih m2 r2 htl
        exact (List.Perm.swap x m2 r2).trans (List.Perm.cons x hperm)

theorem LS_popMin_mem (pq : List (Nat × α)) (m : Nat × α)
    (rest : List (Nat × α)) (h : LS.popMin pq = some (m, rest)) : m ∈ pq :=
  (LS_popMin_perm pq m rest h).mem_iff.mp (List.mem_cons_self m rest)

theorem LS_popMin_rest_subset (pq : List (Nat × α)) (m : Nat × α)
    (rest : List (Nat × α)) (h : LS.popMin pq = some (m, rest)) :
    ∀ x ∈ rest, x ∈ pq := fun x hx =>
  (LS_popMin_perm pq m rest h).mem_iff.mp (List.mem_cons_of_mem m hx)

theorem LS_popMin_mem_rest (pq : List (Nat × α)) (m : Nat × α)
    (rest : List (Nat × α)) (h : LS.popMin pq = some (m, rest))
    (x : Nat × α) (hx : x ∈ pq) (hne : x ≠ m) : x ∈ rest := by
  have hm := (LS_popMin_perm pq m rest h).mem_iff.mpr hx
  rcases List.mem_cons.mp hm with he | ht
  · exact absurd he hne
  · exact ht

theorem LS_popMin_min (pq : List (Nat × α)) (m : Nat × α)
    (rest : List (Nat × α)) (h : LS.popMin pq = some (m, rest)) :
    ∀ x ∈ pq, m.1 ≤ x.1 := by
  induction pq generalizing m rest with
  | nil => exact Option.noConfusion h
  | cons x tl ih =>
    unfold LS.popMin at h
    cases htl : LS.popMin tl with
    | none =>
      obtain rfl : tl = [] := (LS.popMin_eq_none_iff tl).mp htl
      rw [htl] at h
      have hred : some (x, ([] : List (Nat × α))) = some (m, rest) := h
      obtain ⟨h1, h2⟩ := Prod.mk.inj (Option.some.inj hred)
      intro y hy
      rcases List.mem_cons.mp hy with rfl | hm
      · rw [← h1]
      · simp at hm
    | some mr =>
      obtain ⟨m2, r2⟩ := mr
      rw [htl] at h
      have hred : (if LS.pqLEb x m2 = true then some (x, tl)
          else some (m2, x :: r2)) = some (m, rest) := h
      have ihtl := ih m2 r2 htl
      by_cases hc : LS.pqLEb x m2 = true
      · rw [if_pos hc] at hred
        obtain ⟨h1, h2⟩ := Prod.mk.inj (Option.some.inj hred)
        have hxle : x.1 ≤ m2.1 := by
          simp only [LS.pqLEb, Bool.or_eq_true, Bool.and_eq_true,
            decide_eq_true_eq] at hc
          rcases hc with hlt | ⟨heq, _⟩
          · exact Nat.le_of_lt hlt
          · exact Nat.le_of_eq heq
        intro y hy
        rw [← h1]
        rcases List.mem_cons.mp hy with rfl | hm
        · exact Nat.le_refl _
        · exact Nat.le_trans hxle (ihtl y hm)
      · rw [if_neg hc] at hred
        obtain ⟨h1, h2⟩ := Prod.mk.inj (Option.some.inj hred)
        have hmle : m2.1 ≤ x.1 := by
          simp only [LS.pqLEb, Bool.or_eq_true, Bool.and_eq_true,
            decide_eq_true_eq] at hc
          push_neg at hc
          exact hc.1
        intro y hy
        rw [← h1]
        rcases List.mem_cons.mp hy with rfl | hm
        · exact hmle
        · exact ihtl y hm

theorem fhScan_nomatch (l : List (Nat × (α × Nat))) (w : α) :
    ∀ fh0 : List (α × Nat), (∀ pe ∈ l, pe.2.1 ≠ w) →
      pyGet (l.foldl
        (fun fh pe => if pe.2.1 = w then pySet fh w pe.1 else fh) fh0) w
        = pyGet fh0 w := by
  induction l with
  | nil => intro fh0 _; rfl
  | cons hd tl ih =>
    intro fh0 hnm
    simp only [List.foldl_cons]
    rw [if_neg (hnm hd (List.mem_cons_self hd tl))]
    exact ih fh0 (fun pe hm => hnm pe (List.mem_cons_of_mem hd hm))

theorem fhScan_other (l : List (Nat × (α × Nat))) (w : α) (x : α) (hx : x ≠ w) :
    ∀ fh0 : List (α × Nat),
      pyGet (l.foldl
        (fun fh pe => if pe.2.1 = w then pySet fh w pe.1 else fh) fh0) x
        = pyGet fh0 x := by
  induction l with
  | nil => intro fh0; rfl
  | cons hd tl ih =>
    intro fh0
    simp only [List.foldl_cons]
    by_cases hh : hd.2.1 = w
    · rw [if_pos hh, ih (pySet fh0 w hd.1),
        pyGet_pySet_ne fh0 w x hd.1 hx.symm]
    · rw [if_neg hh]
      exact ih fh0

theorem fhScan_match (l : List (Nat × (α × Nat))) (w : α) :
    ∀ fh0 : List (α × Nat), (∃ pe ∈ l, pe.2.1 = w) →
      ∃ pe ∈ l, pe.2.1 = w ∧
        pyGet (l.foldl
          (fun fh pe => if pe.2.1 = w then pySet fh w pe.1 else fh) fh0) w
          = some pe.1 := by
  induction l with
  | nil =>
    intro fh0 hex
    obtain ⟨pe, hpe, _⟩ := hex
    simp at hpe
  | cons hd tl ih =>
    intro fh0 hex
    simp only [List.foldl_cons]
    by_cases htl : ∃ pe ∈ tl, pe.2.1 = w
    · by_cases hh : hd.2.1 = w
      · rw [if_pos hh]
        obtain ⟨pe, hpe, hw, hval⟩ := ih (pySet fh0 w hd.1) htl
        exact ⟨pe, List.mem_cons_of_mem hd hpe, hw, hval⟩
      · rw [if_neg hh]
        obtain ⟨pe, hpe, hw, hval⟩ := ih fh0 htl
        exact ⟨pe, List.mem_cons_of_mem hd hpe, hw, hval⟩
    · have hh : hd.2.1 = w := by
        obtain ⟨pe, hpe, hw⟩ := hex
        rcases List.mem_cons.mp hpe with rfl | hm
        · exact hw
        · exact absurd ⟨pe, hm, hw⟩ htl
      rw [if_pos hh]
      have hnm : ∀ pe ∈ tl, pe.2.1 ≠ w := fun pe hm hw => htl ⟨pe, hm, hw⟩
      refine ⟨hd, List.mem_cons_self hd tl, hh, ?_⟩
      rw [fhScan_nomatch tl w (pySet fh0 w hd.1) hnm, pyGet_pySet_self]

theorem LSWalk_snoc {s : LSState α} {u v w : α} {k : Nat}
    (hw : LSWalk s u v k) : ∀ c : Nat, lsEdge s v w c → LSWalk s u w (k + c) := by
  induction hw with
  | nil x =>
    intro c he
    have h2 := LSWalk.cons he (LSWalk.nil w)
    simpa using h2
  | cons he2 hw2 ih =>
    intro c he
    rw [Nat.add_assoc]
    exact LSWalk.cons he2 (ih c he)

theorem dijkstraLoop_pop_none (s : LSState α) (st : DijkState α)
    (h : LS.popMin st.pq = none) : LS.dijkstraLoop s st = st.first_hops := by
  rw [LS.dijkstraLoop.eq_def]
  split
  · rfl
  · rename_i heq
    rw [h] at heq
    exact Option.noConfusion heq

theorem dijkstraLoop_pop_stale (s : LSState α) (st : DijkState α)
    (d : Nat) (v : α) (pq2 : List (Nat × α))
    (h : LS.popMin st.pq = some ((d, v), pq2))
    (hst : (match pyGet st.distances v with
      | some dcur => decide (d > dcur)
      | none => false) = true) :
    LS.dijkstraLoop s st = LS.dijkstraLoop s { st with pq := pq2 } := by
  rw [LS.dijkstraLoop.eq_def]
  split
  · rename_i heq
    rw [h] at heq
    exact Option.noConfusion heq
  · rename_i d2 c2 p2 heq
    rw [h] at heq
    obtain ⟨h1, h2⟩ := Prod.mk.inj (Option.some.inj heq)
    obtain ⟨h3, h4⟩ := Prod.mk.inj h1
    subst h2 h3 h4
    rw [if_pos hst]

theorem dijkstraLoop_pop_norow (s : LSState α) (st : DijkState α)
    (d : Nat) (v : α) (pq2 : List (Nat × α))
    (h : LS.popMin st.pq = some ((d, v), pq2))
    (hst : (match pyGet st.distances v with
      | some dcur => decide (d > dcur)
      | none => false) = false)
    (hrow : pyGet s.ls_db v = none) :
    LS.dijkstraLoop s st = LS.dijkstraLoop s { st with pq := pq2 } := by
  rw [LS.dijkstraLoop.eq_def]
  split
  · rename_i heq
    rw [h] at heq
    exact Option.noConfusion heq
  · rename_i d2 c2 p2 heq
    rw [h] at heq
    obtain ⟨h1, h2⟩ := Prod.mk.inj (Option.some.inj heq)
    obtain ⟨h3, h4⟩ := Prod.mk.inj h1
    subst h2 h3 h4
    rw [if_neg (by rw [hst]; exact Bool.false_ne_true)]
    rw [hrow]

theorem dijkstraLoop_pop_relax (s : LSState α) (st : DijkState α)
    (d : Nat) (v : α) (pq2 : List (Nat × α)) (row : List (α × Nat))
    (h : LS.popMin st.pq = some ((d, v), pq2))
    (hst : (match pyGet st.distances v with
      | some dcur => decide (d > dcur)
      | none => false) = false)
    (hrow : pyGet s.ls_db v = some row) :
    LS.dijkstraLoop s st = LS.dijkstraLoop s
      (row.foldl (LS.relaxEdge s v d) { st with pq := pq2 }) := by
  rw [LS.dijkstraLoop.eq_def]
  split
  · rename_i heq
    rw [h] at heq
    exact Option.noConfusion heq
  · rename_i d2 c2 p2 heq
    rw [h] at heq
    obtain ⟨h1, h2⟩ := Prod.mk.inj (Option.some.inj heq)
    obtain ⟨h3, h4⟩ := Prod.mk.inj h1
    subst h2 h3 h4
    rw [if_neg (by rw [hst]; exact Bool.false_ne_true)]
    rw [hrow]

end C1Infrastructure

/-- Invariant of the Dijkstra loop. `S` is the set of settled nodes;
`ex` is a set of nodes temporarily exempted from the queue-presence
obligation (the node currently being relaxed, whose queue entry was just
popped). Tentative distances in `distances` always decompose through a
first hop recorded in `first_hops`, queue entries dominate the tentative
distance of their node, settled nodes carry shortest distances and have
had every outgoing edge relaxed, and every discovered unsettled node
keeps an entry in the queue. -/
structure DLInv {α : Type} [LinearOrder α] (s : LSState α) (st : DijkState α)
    (S : Finset α) (ex : Finset α) : Prop where
  dist_self : pyGet st.distances s.addr = some 0
  fh_decomp : ∀ v dv, pyGet st.distances v = some dv → v ≠ s.addr →
    ∃ p a lc c cw, pyGet st.first_hops v = some p ∧
      pyGet s.neighbors p = some (a, lc) ∧ lsEdge s s.addr a c ∧
      LSWalk s a v cw ∧ dv = c + cw
  fh_none : pyGet st.first_hops s.addr = none
  fh_dom : ∀ v, (pyGet st.first_hops v).isSome = true →
    (pyGet st.distances v).isSome = true
  pq_bound : ∀ e ∈ st.pq, ∃ dv, pyGet st.distances e.2 = some dv ∧ dv ≤ e.1
  settled_dist : ∀ v ∈ S, ∃ dv, pyGet st.distances v = some dv ∧
    IsShortestDist s v dv
  settled_relaxed : ∀ v ∈ S, ∀ dv, pyGet st.distances v = some dv →
    ∀ row, pyGet s.ls_db v = some row → ∀ wc ∈ row,
      ∃ dw, pyGet st.distances wc.1 = some dw ∧ dw ≤ dv + wc.2
  unsettled_pq : ∀ v dv, pyGet st.distances v = some dv → v ∉ S → v ∉ ex →
    (dv, v) ∈ st.pq

section C1InvLemmas

variable {α : Type} [LinearOrder α]

theorem DLInv.dist_walk {s : LSState α} {st : DijkState α} {S ex : Finset α}
    (hinv : DLInv s st S ex) (v : α) (dv : Nat)
    (h : pyGet st.distances v = some dv) : LSWalk s s.addr v dv := by
  by_cases hv : v = s.addr
  · subst hv
    rw [hinv.dist_self] at h
    obtain rfl := Option.some.inj h
    exact LSWalk.nil s.addr
  · obtain ⟨p, a, lc, c, cw, _, _, hedge, hwalk, hdv⟩ :=
      hinv.fh_decomp v dv h hv
    subst hdv
    exact LSWalk.cons hedge hwalk

theorem DLInv.weaken_ex {s : LSState α} {st : DijkState α} {S : Finset α}
    (hinv : DLInv s st S ∅) (ex : Finset α) : DLInv s st S ex :=
  ⟨hinv.dist_self, hinv.fh_decomp, hinv.fh_none, hinv.fh_dom, hinv.pq_bound,
   hinv.settled_dist, hinv.settled_relaxed,
   fun v dv hd hS _ => hinv.unsettled_pq v dv hd hS (Finset.not_mem_empty v)⟩

theorem DLInv.pop_other {s : LSState α} {st : DijkState α} {S ex : Finset α}
    (hinv : DLInv s st S ex) (m : Nat × α) (pq2 : List (Nat × α))
    (hpop : LS.popMin st.pq = some (m, pq2))
    (hkeep : ∀ v dv, pyGet st.distances v = some dv → v ∉ S → v ∉ ex →
      (dv, v) ≠ m) :
    DLInv s { st with pq := pq2 } S ex := by
  refine ⟨hinv.dist_self, hinv.fh_decomp, hinv.fh_none, hinv.fh_dom, ?_,
    hinv.settled_dist, hinv.settled_relaxed, ?_⟩
  · intro e he
    exact hinv.pq_bound e (LS_popMin_rest_subset st.pq m pq2 hpop e he)
  · intro v dv hd hS hex
    exact LS_popMin_mem_rest st.pq m pq2 hpop (dv, v)
      (hinv.unsettled_pq v dv hd hS hex) (hkeep v dv hd hS hex)

theorem DLInv.settle {s : LSState α} {st : DijkState α} {S : Finset α}
    {v : α} (hinv : DLInv s st S {v}) (d : Nat)
    (hd : pyGet st.distances v = some d) (hshort : IsShortestDist s v d)
    (hrelax : ∀ row, pyGet s.ls_db v = some row → ∀ wc ∈ row,
      ∃ dw, pyGet st.distances wc.1 = some dw ∧ dw ≤ d + wc.2) :
    DLInv s st (insert v S) ∅ := by
  refine ⟨hinv.dist_self, hinv.fh_decomp, hinv.fh_none, hinv.fh_dom,
    hinv.pq_bound, ?_, ?_, ?_⟩
  · intro u hu
    rcases Finset.mem_insert.mp hu with rfl | hu2
    · exact ⟨d, hd, hshort⟩
    · exact hinv.settled_dist u hu2
  · intro u hu dv hdv row hrow wc hwc
    rcases Finset.mem_insert.mp hu with rfl | hu2
    · rw [hd] at hdv
      obtain rfl := Option.some.inj hdv
      exact hrelax row hrow wc hwc
    · exact hinv.settled_relaxed u hu2 dv hdv row hrow wc hwc
  · intro u du hdu hu _
    have h1 : u ∉ S := fun hc => hu (Finset.mem_insert_of_mem hc)
    have h2 : u ∉ ({v} : Finset α) := by
      intro hc
      exact hu (Finset.mem_insert.mpr (Or.inl (Finset.mem_singleton.mp hc)))
    exact hinv.unsettled_pq u du hdu h1 h2

theorem DLInv.cover_from {s : LSState α} {st : DijkState α} {S : Finset α}
    (hinv : DLInv s st S ∅) {u v : α} {k : Nat} (hw : LSWalk s u v k) :
    ∀ du, u ∈ S → pyGet st.distances u = some du →
      (∃ e ∈ st.pq, e.1 ≤ du + k) ∨
      (v ∈ S ∧ ∃ dv, pyGet st.distances v = some dv ∧ dv ≤ du + k) := by
  induction hw with
  | nil x =>
    intro du hS hd
    exact Or.inr ⟨hS, du, hd, Nat.le_add_right du 0⟩
  | cons he hw2 ih =>
    rename_i u1 x w1 c cw
    intro du hS hd
    obtain ⟨row, hrowu, hcx⟩ := he
    have hmem := pair_mem_of_pyGet row _ _ hcx
    obtain ⟨dx, hdx, hdxle⟩ :=
      hinv.settled_relaxed _ hS du hd row hrowu _ hmem
    by_cases hxS : x ∈ S
    · rcases ih dx hxS hdx with ⟨e, he2, hle⟩ | ⟨hwS, dv, hdv, hdvle⟩
      · exact Or.inl ⟨e, he2, by omega⟩
      · exact Or.inr ⟨hwS, dv, hdv, by omega⟩
    · have hmem2 := hinv.unsettled_pq x dx hdx hxS (Finset.not_mem_empty x)
      exact Or.inl ⟨(dx, x), hmem2, by omega⟩

theorem DLInv.popped_shortest {s : LSState α} {st : DijkState α}
    {S : Finset α} (hinv : DLInv s st S ∅) (d : Nat) (v : α)
    (pq2 : List (Nat × α)) (hpop : LS.popMin st.pq = some ((d, v), pq2))
    (dcur : Nat) (hd : pyGet st.distances v = some dcur) (hle : d ≤ dcur) :
    d = dcur ∧ IsShortestDist s v d := by
  have hmem := LS_popMin_mem st.pq _ _ hpop
  obtain ⟨dv2, hdv2, hdv2le⟩ := hinv.pq_bound (d, v) hmem
  rw [hd] at hdv2
  obtain rfl := Option.some.inj hdv2
  have hle2 : dcur ≤ d := hdv2le
  have hde : d = dcur := Nat.le_antisymm hle hle2
  subst hde
  show d = d ∧ LSWalk s s.addr v d ∧ ∀ k, LSWalk s s.addr v k → d ≤ k
  refine ⟨rfl, hinv.dist_walk v d hd, ?_⟩
  intro k hwk
  by_cases hvS : v ∈ S
  · obtain ⟨dv3, hdv3, hshort3⟩ := hinv.settled_dist v hvS
    rw [hd] at hdv3
    obtain rfl := Option.some.inj hdv3
    exact hshort3.2 k hwk
  · by_cases haS : s.addr ∈ S
    · rcases hinv.cover_from hwk 0 haS hinv.dist_self with
        ⟨e, he, hle3⟩ | ⟨hvS2, _⟩
      · have hmin := LS_popMin_min st.pq _ _ hpop e he
        have hdd : d ≤ e.1 := hmin
        omega
      · exact absurd hvS2 hvS
    · have hmem0 := hinv.unsettled_pq s.addr 0 hinv.dist_self haS
        (Finset.not_mem_empty _)
      have hmin := LS_popMin_min st.pq _ _ hpop (0, s.addr) hmem0
      have hdd : d ≤ 0 := hmin
      omega

theorem relaxEdge_improves_eq (s : LSState α) (current : α) (d : Nat)
    (st : DijkState α) (wc : α × Nat)
    (himp : (match pyGet st.distances wc.1 with
      | none => true
      | some dn => decide (d + wc.2 < dn)) = true) :
    LS.relaxEdge s current d st wc =
      { distances := pySet st.distances wc.1 (d + wc.2)
        predecessors := pySet st.predecessors wc.1 current
        first_hops :=
          if current = s.addr then
            s.neighbors.foldl
              (fun fh pe => if pe.2.1 = wc.1 then pySet fh wc.1 pe.1 else fh)
              st.first_hops
          else
            match pyGet st.first_hops current with
            | some fhc => pySet st.first_hops wc.1 fhc
            | none => st.first_hops
        pq := st.pq ++ [(d + wc.2, wc.1)] } := by
  simp only [LS.relaxEdge]
  rw [if_pos himp]

theorem relaxEdge_stays_eq (s : LSState α) (current : α) (d : Nat)
    (st : DijkState α) (wc : α × Nat)
    (himp : (match pyGet st.distances wc.1 with
      | none => true
      | some dn => decide (d + wc.2 < dn)) = false) :
    LS.relaxEdge s current d st wc = st := by
  simp only [LS.relaxEdge]
  rw [if_neg (by rw [himp]; exact Bool.false_ne_true)]

theorem relaxEdge_preserves (s : LSState α) {S ex : Finset α} (current : α)
    (d : Nat) (st : DijkState α) (wc : α × Nat)
    (hports : (s.neighbors.map Prod.fst).Nodup)
    (hlinks : ∀ ac ∈ (pyGet s.ls_db s.addr).getD [],
      ∃ pe ∈ s.neighbors, pe.2.1 = ac.1)
    (hinv : DLInv s st S ex)
    (hcur : pyGet st.distances current = some d)
    (hedge : lsEdge s current wc.1 wc.2) :
    DLInv s (LS.relaxEdge s current d st wc) S ex ∧
    pyGet (LS.relaxEdge s current d st wc).distances current = some d ∧
    (∃ dw, pyGet (LS.relaxEdge s current d st wc).distances wc.1 = some dw ∧
      dw ≤ d + wc.2) ∧
    (∀ x dx, pyGet st.distances x = some dx →
      ∃ dx2, pyGet (LS.relaxEdge s current d st wc).distances x = some dx2 ∧
        dx2 ≤ dx) := by
  by_cases himp : (match pyGet st.distances wc.1 with
      | none => true
      | some dn => decide (d + wc.2 < dn)) = true
  case neg =>
    have himpf := Bool.eq_false_iff.mpr himp
    rw [relaxEdge_stays_eq s current d st wc himpf]
    refine ⟨hinv, hcur, ?_, fun x dx h => ⟨dx, h, Nat.le_refl dx⟩⟩
    cases hold : pyGet st.distances wc.1 with
    | none => rw [hold] at himpf; exact Bool.noConfusion himpf
    | some dn =>
      rw [hold] at himpf
      have hnl : ¬ (d + wc.2 < dn) := of_decide_eq_false himpf
      exact ⟨dn, rfl, Nat.le_of_not_lt hnl⟩
  case pos =>
    have himp_lt : ∀ dn, pyGet st.distances wc.1 = some dn →
        d + wc.2 < dn := by
      intro dn hdn
      rw [hdn] at himp
      simpa using himp
    have hwna : wc.1 ≠ s.addr := by
      intro hwa
      rw [hwa, hinv.dist_self] at himp
      have h2 : d + wc.2 < 0 := by simpa using himp
      omega
    have hwnc : wc.1 ≠ current := by
      intro hwc2
      rw [hwc2, hcur] at himp
      have h2 : d + wc.2 < d := by simpa using himp
      omega
    have hwalk_new : LSWalk s s.addr wc.1 (d + wc.2) :=
      LSWalk_snoc (hinv.dist_walk current d hcur) wc.2 hedge
    have hwS : wc.1 ∉ S := by
      intro hin
      obtain ⟨dvw, hdvw, hshortw⟩ := hinv.settled_dist _ hin
      have h2 := himp_lt dvw hdvw
      have h3 := hshortw.2 _ hwalk_new
      omega
    have hre := relaxEdge_improves_eq s current d st wc himp
    have hD : (LS.relaxEdge s current d st wc).distances
        = pySet st.distances wc.1 (d + wc.2) := by rw [hre]
    have hPQ : (LS.relaxEdge s current d st wc).pq
        = st.pq ++ [(d + wc.2, wc.1)] := by rw [hre]
    have hF1 : ∀ x, x ≠ wc.1 →
        pyGet (LS.relaxEdge s current d st wc).first_hops x
          = pyGet st.first_hops x := by
      intro x hx
      rw [hre]
      show pyGet (if current = s.addr then
          s.neighbors.foldl
            (fun fh pe => if pe.2.1 = wc.1 then pySet fh wc.1 pe.1 else fh)
            st.first_hops
        else
          match pyGet st.first_hops current with
          | some fhc => pySet st.first_hops wc.1 fhc
          | none => st.first_hops) x = pyGet st.first_hops x
      by_cases hca : current = s.addr
      · rw [if_pos hca]
        exact fhScan_other s.neighbors wc.1 x hx st.first_hops
      · rw [if_neg hca]
        obtain ⟨p, a, lc, c0, cw0, hfc, _, _, _, _⟩ :=
          hinv.fh_decomp current d hcur hca
        rw [hfc]
        exact pyGet_pySet_ne st.first_hops wc.1 x p hx.symm
    have hF2 : ∃ p a lc c cw,
        pyGet (LS.relaxEdge s current d st wc).first_hops wc.1 = some p ∧
        pyGet s.neighbors p = some (a, lc) ∧ lsEdge s s.addr a c ∧
        LSWalk s a wc.1 cw ∧ d + wc.2 = c + cw := by
      by_cases hca : current = s.addr
      · subst hca
        have hcur2 := hcur
        rw [hinv.dist_self] at hcur2
        have hd0 : d = 0 := (Option.some.inj hcur2).symm
        obtain ⟨row0, hrow0, hc0⟩ := hedge
        have hlk := hlinks (wc.1, wc.2) (by
          rw [hrow0]
          exact pair_mem_of_pyGet row0 _ _ hc0)
        obtain ⟨pe, hpe, hpe21⟩ := hlk
        obtain ⟨pe2, hpe2, hpe221, hval⟩ :=
          fhScan_match s.neighbors wc.1 st.first_hops ⟨pe, hpe, hpe21⟩
        have hnb2 : pyGet s.neighbors pe2.1 = some (wc.1, pe2.2.2) := by
          have hg := pyGet_of_mem_nodup s.neighbors pe2 hpe2 hports
          rwa [show pe2.2 = (wc.1, pe2.2.2) from by rw [← hpe221]] at hg
        refine ⟨pe2.1, wc.1, pe2.2.2, wc.2, 0, ?_, hnb2,
          ⟨row0, hrow0, hc0⟩, LSWalk.nil wc.1, by omega⟩
        rw [hre]
        show pyGet (if s.addr = s.addr then
            s.neighbors.foldl
              (fun fh pe => if pe.2.1 = wc.1 then pySet fh wc.1 pe.1 else fh)
              st.first_hops
          else
            match pyGet st.first_hops s.addr with
            | some fhc => pySet st.first_hops wc.1 fhc
            | none => st.first_hops) wc.1 = some pe2.1
        rw [if_pos rfl]
        exact hval
      · obtain ⟨p, a, lc, c0, cw0, hfc, hnb, hedge0, hwalk0, hd0⟩ :=
          hinv.fh_decomp current d hcur hca
        refine ⟨p, a, lc, c0, cw0 + wc.2, ?_, hnb, hedge0,
          LSWalk_snoc hwalk0 wc.2 hedge, by omega⟩
        rw [hre]
        show pyGet (if current = s.addr then
            s.neighbors.foldl
              (fun fh pe => if pe.2.1 = wc.1 then pySet fh wc.1 pe.1 else fh)
              st.first_hops
          else
            match pyGet st.first_hops current with
            | some fhc => pySet st.first_hops wc.1 fhc
            | none => st.first_hops) wc.1 = some p
        rw [if_neg hca, hfc]
        exact pyGet_pySet_self st.first_hops wc.1 p
    refine ⟨⟨?_, ?_, ?_, ?_, ?_, ?_, ?_, ?_⟩, ?_, ?_, ?_⟩
    · rw [hD, pyGet_pySet_ne st.distances wc.1 s.addr (d + wc.2) hwna]
      exact hinv.dist_self
    · intro v dv hdv hvna
      by_cases hvw : v = wc.1
      · subst hvw
        rw [hD, pyGet_pySet_self] at hdv
        obtain rfl := Option.some.inj hdv
        obtain ⟨p, a, lc, c, cw, hfh, hnb, hed, hwk, heq⟩ := hF2
        exact ⟨p, a, lc, c, cw, hfh, hnb, hed, hwk, heq⟩
      · rw [hD, pyGet_pySet_ne st.distances wc.1 v (d + wc.2)
          (fun he => hvw he.symm)] at hdv
        obtain ⟨p, a, lc, c, cw, hfh, hnb, hed, hwk, heq⟩ :=
          hinv.fh_decomp v dv hdv hvna
        exact ⟨p, a, lc, c, cw, (hF1 v hvw).symm ▸ hfh, hnb, hed, hwk, heq⟩
    · rw [hF1 s.addr (fun he => hwna he.symm)]
      exact hinv.fh_none
    · intro v hv
      by_cases hvw : v = wc.1
      · subst hvw
        rw [hD, pyGet_pySet_self]
        rfl
      · rw [hF1 v hvw] at hv
        rw [hD, pyGet_pySet_ne st.distances wc.1 v (d + wc.2)
          (fun he => hvw he.symm)]
        exact hinv.fh_dom v hv
    · intro e he
      rw [hPQ] at he
      rw [hD]
      rcases List.mem_append.mp he with hold | hnew
      · obtain ⟨dv, hdv, hlee⟩ := hinv.pq_bound e hold
        by_cases hew : e.2 = wc.1
        · rw [hew] at hdv ⊢
          have hlt := himp_lt dv hdv
          rw [pyGet_pySet_self]
          exact ⟨d + wc.2, rfl, by omega⟩
        · rw [pyGet_pySet_ne st.distances wc.1 e.2 (d + wc.2)
            (fun h2 => hew h2.symm)]
          exact ⟨dv, hdv, hlee⟩
      · rw [List.mem_singleton.mp hnew]
        rw [pyGet_pySet_self]
        exact ⟨d + wc.2, rfl, Nat.le_refl _⟩
    · intro v hvS
      obtain ⟨dv, hdv, hshort⟩ := hinv.settled_dist v hvS
      have hvw : v ≠ wc.1 := fun he => hwS (he ▸ hvS)
      rw [hD, pyGet_pySet_ne st.distances wc.1 v (d + wc.2)
        (fun he => hvw he.symm)]
      exact ⟨dv, hdv, hshort⟩
    · intro u huS dv hdv row hrow wc2 hwc2
      have huw : u ≠ wc.1 := fun he => hwS (he ▸ huS)
      rw [hD, pyGet_pySet_ne st.distances wc.1 u (d + wc.2)
        (fun he => huw he.symm)] at hdv
      obtain ⟨dw, hdw, hbound⟩ :=
        hinv.settled_relaxed u huS dv hdv row hrow wc2 hwc2
      by_cases hww : wc2.1 = wc.1
      · rw [hww] at hdw ⊢
        have hlt := himp_lt dw hdw
        rw [hD, pyGet_pySet_self]
        exact ⟨d + wc.2, rfl, by omega⟩
      · rw [hD, pyGet_pySet_ne st.distances wc.1 wc2.1 (d + wc.2)
          (fun he => hww he.symm)]
        exact ⟨dw, hdw, hbound⟩
    · intro v dv hdv hvS hvex
      rw [hPQ]
      by_cases hvw : v = wc.1
      · subst hvw
        rw [hD, pyGet_pySet_self] at hdv
        obtain rfl := Option.some.inj hdv
        exact List.mem_append.mpr (Or.inr (List.mem_singleton.mpr rfl))
      · rw [hD, pyGet_pySet_ne st.distances wc.1 v (d + wc.2)
          (fun he => hvw he.symm)] at hdv
        exact List.mem_append.mpr
          (Or.inl (hinv.unsettled_pq v dv hdv hvS hvex))
    · rw [hD, pyGet_pySet_ne st.distances wc.1 current (d + wc.2) hwnc]
      exact hcur
    · rw [hD, pyGet_pySet_self]
      exact ⟨d + wc.2, rfl, Nat.le_refl _⟩
    · intro x dx hdx
      by_cases hxw : x = wc.1
      · subst hxw
        have hlt := himp_lt dx hdx
        rw [hD, pyGet_pySet_self]
        exact ⟨d + wc.2, rfl, by omega⟩
      · rw [hD, pyGet_pySet_ne st.distances wc.1 x (d + wc.2)
          (fun he => hxw he.symm)]
        exact ⟨dx, hdx, Nat.le_refl dx⟩

theorem foldl_relaxEdge_preserves (s : LSState α) {S ex : Finset α}
    (current : α) (d : Nat)
    (hports : (s.neighbors.map Prod.fst).Nodup)
    (hlinks : ∀ ac ∈ (pyGet s.ls_db s.addr).getD [],
      ∃ pe ∈ s.neighbors, pe.2.1 = ac.1) :
    ∀ (row : List (α × Nat)) (st : DijkState α),
      (∀ wc ∈ row, lsEdge s current wc.1 wc.2) →
      DLInv s st S ex → pyGet st.distances current = some d →
      DLInv s (row.foldl (LS.relaxEdge s current d) st) S ex ∧
      pyGet (row.foldl (LS.relaxEdge s current d) st).distances current
        = some d ∧
      (∀ wc ∈ row, ∃ dw,
        pyGet (row.foldl (LS.relaxEdge s current d) st).distances wc.1
          = some dw ∧ dw ≤ d + wc.2) ∧
      (∀ x dx, pyGet st.distances x = some dx →
        ∃ dx2, pyGet (row.foldl (LS.relaxEdge s current d) st).distances x
          = some dx2 ∧ dx2 ≤ dx) := by
  intro row
  induction row with
  | nil =>
    intro st _ hinv hcur
    exact ⟨hinv, hcur, by simp, fun x dx h => ⟨dx, h, Nat.le_refl dx⟩⟩
  | cons hd tl ih =>
    intro st hE hinv hcur
    simp only [List.foldl_cons]
    obtain ⟨hinv2, hcur2, ⟨dw0, hdw0, hdw0le⟩, hmono⟩ :=
      relaxEdge_preserves s current d st hd hports hlinks hinv hcur
        (hE hd (List.mem_cons_self hd tl))
    obtain ⟨hinv3, hcur3, hrow3, hmono3⟩ :=
      ih (LS.relaxEdge s current d st hd)
        (fun wc hm => hE wc (List.mem_cons_of_mem hd hm)) hinv2 hcur2
    refine ⟨hinv3, hcur3, ?_, ?_⟩
    · intro wc hm
      rcases List.mem_cons.mp hm with rfl | hm2
      · obtain ⟨dw2, hdw2, hdw2le⟩ := hmono3 wc.1 dw0 hdw0
        exact ⟨dw2, hdw2, by omega⟩
      · exact hrow3 wc hm2
    · intro x dx h
      obtain ⟨dx1, h1, hle1⟩ := hmono x dx h
      obtain ⟨dx2, h2, hle2⟩ := hmono3 x dx1 h1
      exact ⟨dx2, h2, by omega⟩

/-- What holds of the first-hop table Dijkstra finally returns: every entry
names the out-port of the first hop of a shortest path to its destination,
self has no entry, and reachability implies presence. -/
def DijkstraPost (s : LSState α) (fh : List (α × Nat)) : Prop :=
  (∀ v p, pyGet fh v = some p → v ≠ s.addr ∧ ∃ a lc c cw,
      pyGet s.neighbors p = some (a, lc) ∧ lsEdge s s.addr a c ∧
      LSWalk s a v cw ∧ IsShortestDist s v (c + cw)) ∧
  (∀ v, v ≠ s.addr → (∃ k, LSWalk s s.addr v k) →
    (pyGet fh v).isSome = true) ∧
  pyGet fh s.addr = none

theorem DLInv_final (s : LSState α) (st : DijkState α) (S : Finset α)
    (hinv : DLInv s st S ∅) (hpq : st.pq = []) :
    DijkstraPost s st.first_hops := by
  have hAS : ∀ v dv, pyGet st.distances v = some dv → v ∈ S := by
    intro v dv hdv
    by_contra hns
    have hm := hinv.unsettled_pq v dv hdv hns (Finset.not_mem_empty v)
    rw [hpq] at hm
    simp at hm
  have hreach : ∀ (u v : α) (k : Nat), LSWalk s u v k →
      (pyGet st.distances u).isSome = true →
      (pyGet st.distances v).isSome = true := by
    intro u v k hw
    induction hw with
    | nil x => exact id
    | cons he hw2 ih =>
      intro h
      obtain ⟨row, hrowu, hcx⟩ := he
      obtain ⟨du, hdu⟩ := Option.isSome_iff_exists.mp h
      have huS := hAS _ du hdu
      obtain ⟨dx, hdx, _⟩ := hinv.settled_relaxed _ huS du hdu row hrowu _
        (pair_mem_of_pyGet row _ _ hcx)
      exact ih (by rw [hdx]; rfl)
  refine ⟨?_, ?_, hinv.fh_none⟩
  · intro v p hvp
    have hvna : v ≠ s.addr := by
      intro hva
      rw [hva, hinv.fh_none] at hvp
      exact Option.noConfusion hvp
    have hs : (pyGet st.first_hops v).isSome = true := by rw [hvp]; rfl
    obtain ⟨dv, hdv⟩ := Option.isSome_iff_exists.mp (hinv.fh_dom v hs)
    obtain ⟨p2, a, lc, c, cw, hfp2, hnb, hed, hwk, hdveq⟩ :=
      hinv.fh_decomp v dv hdv hvna
    rw [hfp2] at hvp
    obtain rfl := Option.some.inj hvp
    obtain ⟨dv3, hdv3, hshort⟩ := hinv.settled_dist v (hAS v dv hdv)
    rw [hdv] at hdv3
    obtain rfl := Option.some.inj hdv3
    refine ⟨hvna, a, lc, c, cw, hnb, hed, hwk, ?_⟩
    rw [← hdveq]
    exact hshort
  · intro v hvna hex
    obtain ⟨k, hwk⟩ := hex
    have h0 : (pyGet st.distances s.addr).isSome = true := by
      rw [hinv.dist_self]
      rfl
    obtain ⟨dv, hdv⟩ := Option.isSome_iff_exists.mp (hreach _ _ _ hwk h0)
    obtain ⟨p2, a, lc, c, cw, hfp2, _, _, _, _⟩ :=
      hinv.fh_decomp v dv hdv hvna
    rw [hfp2]
    rfl

theorem dijkstraLoop_post (s : LSState α)
    (hports : (s.neighbors.map Prod.fst).Nodup)
    (hrows : ∀ orow ∈ s.ls_db, (orow.2.map Prod.fst).Nodup)
    (hlinks : ∀ ac ∈ (pyGet s.ls_db s.addr).getD [],
      ∃ pe ∈ s.neighbors, pe.2.1 = ac.1) :
    ∀ st : DijkState α, (∃ S : Finset α, DLInv s st S ∅) →
      DijkstraPost s (LS.dijkstraLoop s st) := by
  intro st
  induction st using LS.dijkstraLoop.induct with
  | s => exact s
  | case1 x hpop =>
    intro hex
    obtain ⟨S, hinv⟩ := hex
    rw [dijkstraLoop_pop_none s x hpop]
    exact DLInv_final s x S hinv ((LS.popMin_eq_none_iff x.pq).mp hpop)
  | case2 x d v pq2 hpop st1 stale hst ih =>
    intro hex
    obtain ⟨S, hinv⟩ := hex
    have hst2 : (match pyGet x.distances v with
      | some dcur => decide (d > dcur)
      | none => false) = true := hst
    obtain ⟨dcur, hdc, hgt⟩ : ∃ dcur,
        pyGet x.distances v = some dcur ∧ dcur < d := by
      cases hdc : pyGet x.distances v with
      | none =>
        rw [hdc] at hst2
        have hf : (false : Bool) = true := hst2
        exact Bool.noConfusion hf
      | some dcur =>
        rw [hdc] at hst2
        have hdec : decide (d > dcur) = true := hst2
        exact ⟨dcur, rfl, of_decide_eq_true hdec⟩
    have hkeep : ∀ u du, pyGet x.distances u = some du → u ∉ S →
        u ∉ (∅ : Finset α) → (du, u) ≠ (d, v) := by
      intro u du hdu _ _ heq
      obtain ⟨h1, h2⟩ := Prod.mk.inj heq
      rw [h2, hdc] at hdu
      have := Option.some.inj hdu
      omega
    rw [dijkstraLoop_pop_stale s x d v pq2 hpop hst2]
    exact ih ⟨S, hinv.pop_other (d, v) pq2 hpop hkeep⟩
  | case3 x d v pq2 hpop st1 stale hst hrow ih =>
    intro hex
    obtain ⟨S, hinv⟩ := hex
    have hst2 : (match pyGet x.distances v with
      | some dcur => decide (d > dcur)
      | none => false) = false := Bool.eq_false_iff.mpr hst
    have hmemq := LS_popMin_mem x.pq _ _ hpop
    obtain ⟨dcur0, hdc0g, _⟩ := hinv.pq_bound (d, v) hmemq
    have hdc0 : pyGet x.distances v = some dcur0 := hdc0g
    have hst3 := hst2
    rw [hdc0] at hst3
    have hst4 : decide (d > dcur0) = false := hst3
    have hdle : d ≤ dcur0 := Nat.le_of_not_lt (of_decide_eq_false hst4)
    obtain ⟨hdeq, hshort⟩ :=
      hinv.popped_shortest d v pq2 hpop dcur0 hdc0 hdle
    subst hdeq
    have hkeep : ∀ u du, pyGet x.distances u = some du → u ∉ S →
        u ∉ ({v} : Finset α) → (du, u) ≠ (d, v) := by
      intro u du _ _ huex heq
      obtain ⟨h1, h2⟩ := Prod.mk.inj heq
      exact huex (by rw [h2]; exact Finset.mem_singleton_self v)
    have hinv1 := (hinv.weaken_ex {v}).pop_other (d, v) pq2 hpop hkeep
    have hrelax : ∀ row2, pyGet s.ls_db v = some row2 → ∀ wc ∈ row2,
        ∃ dw, pyGet ({ x with pq := pq2 } : DijkState α).distances wc.1
          = some dw ∧ dw ≤ d + wc.2 := by
      intro row2 hrow2
      rw [hrow] at hrow2
      exact Option.noConfusion hrow2
    have hinv2 := hinv1.settle d hdc0 hshort hrelax
    rw [dijkstraLoop_pop_norow s x d v pq2 hpop hst2 hrow]
    exact ih ⟨insert v S, hinv2⟩
  | case4 x d v pq2 hpop st1 stale hst row hrow ih =>
    intro hex
    obtain ⟨S, hinv⟩ := hex
    have hst2 : (match pyGet x.distances v with
      | some dcur => decide (d > dcur)
      | none => false) = false := Bool.eq_false_iff.mpr hst
    have hmemq := LS_popMin_mem x.pq _ _ hpop
    obtain ⟨dcur0, hdc0g, _⟩ := hinv.pq_bound (d, v) hmemq
    have hdc0 : pyGet x.distances v = some dcur0 := hdc0g
    have hst3 := hst2
    rw [hdc0] at hst3
    have hst4 : decide (d > dcur0) = false := hst3
    have hdle : d ≤ dcur0 := Nat.le_of_not_lt (of_decide_eq_false hst4)
    obtain ⟨hdeq, hshort⟩ :=
      hinv.popped_shortest d v pq2 hpop dcur0 hdc0 hdle
    subst hdeq
    have hkeep : ∀ u du, pyGet x.distances u = some du → u ∉ S →
        u ∉ ({v} : Finset α) → (du, u) ≠ (d, v) := by
      intro u du _ _ huex heq
      obtain ⟨h1, h2⟩ := Prod.mk.inj heq
      exact huex (by rw [h2]; exact Finset.mem_singleton_self v)
    have hinv1 := (hinv.weaken_ex {v}).pop_other (d, v) pq2 hpop hkeep
    have hrownd := hrows (v, row) (pair_mem_of_pyGet s.ls_db v row hrow)
    have hE : ∀ wc ∈ row, lsEdge s v wc.1 wc.2 := by
      intro wc hm
      exact ⟨row, hrow, pyGet_of_mem_nodup row wc hm hrownd⟩
    obtain ⟨hinv2, hcur2, hbounds, _⟩ :=
      foldl_relaxEdge_preserves s v d hports hlinks row
        { x with pq := pq2 } hE hinv1 hdc0
    have hrelax : ∀ row2, pyGet s.ls_db v = some row2 → ∀ wc ∈ row2,
        ∃ dw, pyGet (row.foldl (LS.relaxEdge s v d)
          { x with pq := pq2 }).distances wc.1 = some dw ∧
          dw ≤ d + wc.2 := by
      intro row2 hrow2
      rw [hrow] at hrow2
      obtain rfl := Option.some.inj hrow2
      exact hbounds
    have hinv3 := hinv2.settle d hcur2 hshort hrelax
    rw [dijkstraLoop_pop_relax s x d v pq2 row hpop hst2 hrow]
    exact ih ⟨insert v S, hinv3⟩

theorem dijkstraInit_inv (s : LSState α) :
    DLInv s (LS.dijkstraInit s) ∅ ∅ := by
  refine ⟨?_, ?_, ?_, ?_, ?_, ?_, ?_, ?_⟩
  · simp [LS.dijkstraInit, pyGet]
  · intro v dv hdv hvna
    unfold LS.dijkstraInit at hdv
    simp only [pyGet] at hdv
    by_cases hv : s.addr = v
    · exact absurd hv.symm hvna
    · rw [if_neg hv] at hdv
      exact Option.noConfusion hdv
  · rfl
  · intro v hv
    exact Bool.noConfusion hv
  · intro e he
    have he2 : e = (0, s.addr) := List.mem_singleton.mp he
    subst he2
    refine ⟨0, ?_, Nat.le_refl 0⟩
    simp [LS.dijkstraInit, pyGet]
  · intro v hv
    exact absurd hv (Finset.not_mem_empty v)
  · intro v hv
    exact absurd hv (Finset.not_mem_empty v)
  · intro v dv hdv hvS _
    unfold LS.dijkstraInit at hdv ⊢
    simp only [pyGet] at hdv
    by_cases hv : s.addr = v
    · subst hv
      rw [if_pos rfl] at hdv
      obtain rfl := Option.some.inj hdv
      exact List.mem_singleton.mpr rfl
    · rw [if_neg hv] at hdv
      exact Option.noConfusion hdv

/-- C1 (amended): under the well-formedness the engine maintains on its own
tables — duplicate-free neighbor ports, duplicate-free keys in every stored
link-state row, and every link recorded in `ls_db[self]` backed by an entry
of the neighbor table — `calculate_forwarding_table` replaces the forwarding
table with a map that (i) sends each entry's destination to the local
out-port of the first hop of a shortest path from self in the directed graph
implied by `ls_db`, (ii) contains exactly the destinations other than self
reachable from self in that graph, and (iii) never contains self. Without
the `ls_db[self]`/neighbor-table synchronization the original claim is
false: a reachable destination can be missing (see the counterexample). -/
theorem LS_claim_C1_amended (s : LSState α)
    (hports : (s.neighbors.map Prod.fst).Nodup)
    (hrows : ∀ orow ∈ s.ls_db, (orow.2.map Prod.fst).Nodup)
    (hlinks : ∀ ac ∈ (pyGet s.ls_db s.addr).getD [],
      ∃ pe ∈ s.neighbors, pe.2.1 = ac.1) :
    (∀ v p, pyGet (LS.calculate_forwarding_table s).forwarding_table v
        = some p →
      v ≠ s.addr ∧ ∃ a lc c cw, pyGet s.neighbors p = some (a, lc) ∧
        lsEdge s s.addr a c ∧ LSWalk s a v cw ∧
        IsShortestDist s v (c + cw)) ∧
    (∀ v, v ≠ s.addr →
      ((∃ k, LSWalk s s.addr v k) ↔
        (pyGet (LS.calculate_forwarding_table s).forwarding_table
          v).isSome = true)) ∧
    pyGet (LS.calculate_forwarding_table s).forwarding_table s.addr
      = none := by
  have hpost := dijkstraLoop_post s hports hrows hlinks (LS.dijkstraInit s)
    ⟨∅, dijkstraInit_inv s⟩
  obtain ⟨h1, h2, h3⟩ := hpost
  refine ⟨h1, ?_, h3⟩
  intro v hvna
  constructor
  · exact h2 v hvna
  · intro hs
    obtain ⟨p, hp⟩ := Option.isSome_iff_exists.mp hs
    obtain ⟨_, a, lc, c, cw, _, hed, hwk, hshort⟩ := h1 v p hp
    exact ⟨c + cw, hshort.1⟩

end C1InvLemmas

/-- A state whose `ls_db[self]` row records a link that the neighbor table
does not back (the C9 desynchronization): node 1 is reachable from self in
the graph implied by `ls_db`, yet Dijkstra finds no out-port for it. -/
def lsStateC1 : LSState Nat :=
  { addr := 0
    heartbeat_time := 100
    last_sent := 0
    ls_db := [(0, [(1, 5)])]
    seq_nums := [(0, 2)]
    neighbors := []
    forwarding_table := []
    packet_history := [] }

/-- C1 is false as stated over every state: at `lsStateC1` the destination 1
is reachable from self in the directed graph implied by `ls_db` (one edge of
cost 5), is not self, and yet is absent from the table
`calculate_forwarding_table` computes, because the first-hop scan finds no
neighbor-table entry for it. -/
theorem LS_claim_C1_counterexample :
    LSWalk lsStateC1 lsStateC1.addr 1 5 ∧ (1 : Nat) ≠ lsStateC1.addr ∧
    pyGet (LS.calculate_forwarding_table lsStateC1).forwarding_table 1
      = none := by
  refine ⟨?_, by decide, ?_⟩
  · have he : lsEdge lsStateC1 0 1 5 := ⟨[(1, 5)], rfl, rfl⟩
    have hw := LSWalk.cons he (LSWalk.nil 1)
    exact hw
  · show pyGet (LS.dijkstraLoop lsStateC1 (LS.dijkstraInit lsStateC1)) 1
      = none
    have e1 := dijkstraLoop_pop_relax lsStateC1 (LS.dijkstraInit lsStateC1)
      0 0 [] [(1, 5)] rfl rfl rfl
    have e2 : ([(1, 5)] : List (Nat × Nat)).foldl
        (LS.relaxEdge lsStateC1 0 0)
        { LS.dijkstraInit lsStateC1 with pq := [] } =
        { distances := [(0, 0), (1, 5)], predecessors := [(1, 0)],
          first_hops := [], pq := [(5, 1)] } := by rfl
    rw [e1, e2]
    have e3 := dijkstraLoop_pop_norow lsStateC1
      { distances := [(0, 0), (1, 5)], predecessors := [(1, 0)],
        first_hops := [], pq := [(5, 1)] } 5 1 [] rfl rfl rfl
    rw [e3]
    show pyGet (LS.dijkstraLoop lsStateC1
      { distances := [(0, 0), (1, 5)], predecessors := [(1, 0)],
        first_hops := [], pq := [] }) 1 = none
    rw [dijkstraLoop_pop_none lsStateC1
      { distances := [(0, 0), (1, 5)], predecessors := [(1, 0)],
        first_hops := [], pq := [] } rfl]
    rfl

/-- Witness for C1 (amended) at the concrete in-sync state `lsStateC9`:
its three well-formedness hypotheses hold by computation. -/
theorem LS_claim_C1_amended_witness :
    (∀ v p, pyGet (LS.calculate_forwarding_table lsStateC9).forwarding_table
        v = some p →
      v ≠ lsStateC9.addr ∧ ∃ a lc c cw,
        pyGet lsStateC9.neighbors p = some (a, lc) ∧
        lsEdge lsStateC9 lsStateC9.addr a c ∧ LSWalk lsStateC9 a v cw ∧
        IsShortestDist lsStateC9 v (c + cw)) ∧
    (∀ v, v ≠ lsStateC9.addr →
      ((∃ k, LSWalk lsStateC9 lsStateC9.addr v k) ↔
        (pyGet (LS.calculate_forwarding_table lsStateC9).forwarding_table
          v).isSome = true)) ∧
    pyGet (LS.calculate_forwarding_table lsStateC9).forwarding_table
      lsStateC9.addr = none :=
  LS_claim_C1_amended lsStateC9 (by decide) (by decide) (by decide)
